import Mathlib

/-!
# photosorter: shallow embedding and verified properties

The Go program `photosorter.go` watches a source directory and copies every
not yet seen regular file to `<target>/<year>/<name>`.  This development
embeds the program in Lean:

* Go strings are lists of characters (`GoString`);
* a `map[string]bool` whose values are all `true` is the list of its keys;
* the operating system is an explicit `World`: a file-system map, the
  directory listing handed out by `os.ReadDir`, and a trace of the system
  calls performed so far;
* the channel between `watcher` and `sortWorker` is a bounded FIFO list.

The library functions the program calls (`bufio.Scanner`, `path.Join`,
`strconv.Itoa`, `strings.HasPrefix`, `os.*`) are modelled after the Go
standard library, each in the namespace of its package.
-/

namespace Photosorter

/-- A Go string, as the list of its characters. -/
abbrev GoString := List Char

/-- Length of a Go string in bytes (UTF-8), the unit `len` counts in. -/
def byteLen (s : GoString) : Nat :=
  (s.map (fun c => c.utf8Size)).sum

/-! ## Package `strings` -/

namespace strings

/-- `strings.HasPrefix(s, pre)`. -/
def HasPrefix (s pre : GoString) : Bool :=
  pre.isPrefixOf s

end strings

/-! ## Package `strconv` -/

namespace strconv

/-- The character of a decimal digit `d < 10`. -/
def digitChar (d : Nat) : Char :=
  Char.ofNat (48 + d)

/-- The digit loop of `formatBits` in base 10: the digits of `n` are put in
front of `acc`, least significant first. -/
def formatBits : Nat → Nat → GoString → GoString
  | 0, _, acc => acc
  | fuel + 1, n, acc =>
    if n < 10 then digitChar n :: acc
    else formatBits fuel (n / 10) (digitChar (n % 10) :: acc)

/-- `strconv.Itoa(i)`: the decimal rendering of `i`, with a leading `-` for a
negative number and no padding. -/
def Itoa (i : Int) : GoString :=
  if i < 0 then '-' :: formatBits (i.natAbs + 1) i.natAbs []
  else formatBits (i.natAbs + 1) i.natAbs []

end strconv

/-! ## Package `path` -/

namespace path

/-- The inner loop of the `..` case of `Clean`, on the write index `w`:
`for out.w > dotdot && out.index(out.w) != '/' { out.w-- }`. -/
def backtrack (buf : GoString) (dotdot : Nat) : Nat → Nat → Nat
  | 0, w => w
  | fuel + 1, w =>
    if dotdot < w ∧ buf[w]? ≠ some '/' then backtrack buf dotdot fuel (w - 1) else w

/-- The main loop of `path.Clean` over the unread part of the path; `out` is
the text written so far and `dotdot` the index where `..` must stop. The
result is the final `out` and `dotdot`. -/
def cleanLoop (rooted : Bool) : Nat → GoString → GoString → Nat → GoString × Nat
  | 0, _, out, dotdot => (out, dotdot)
  | _ + 1, [], out, dotdot => (out, dotdot)
  | fuel + 1, c :: r, out, dotdot =>
    if c = '/' then
      -- empty path element
      cleanLoop rooted fuel r out dotdot
    else if c = '.' ∧ (r = [] ∨ r.head? = some '/') then
      -- . element
      cleanLoop rooted fuel r out dotdot
    else if c = '.' ∧ r.head? = some '.' ∧ (r.tail = [] ∨ r.tail.head? = some '/') then
      -- .. element: remove to last /
      if dotdot < out.length then
        cleanLoop rooted fuel r.tail
          (out.take (backtrack out dotdot out.length (out.length - 1))) dotdot
      else if rooted = false then
        let out1 := (if 0 < out.length then out ++ ['/'] else out) ++ ['.', '.']
        cleanLoop rooted fuel r.tail out1 out1.length
      else
        cleanLoop rooted fuel r.tail out dotdot
    else
      -- real path element: add slash if needed, copy element
      let out1 :=
        if (rooted = true ∧ out.length ≠ 1) ∨ (rooted = false ∧ out.length ≠ 0)
        then out ++ ['/'] else out
      cleanLoop rooted fuel (r.dropWhile (fun x => x ≠ '/'))
        (out1 ++ c :: r.takeWhile (fun x => x ≠ '/')) dotdot

/-- `path.Clean(p)`: the shortest path name equivalent to `p`. -/
def Clean (p : GoString) : GoString :=
  match p with
  | [] => ['.']
  | c :: r =>
    let out :=
      if c = '/' then (cleanLoop true r.length r ['/'] 1).1
      else (cleanLoop false (r.length + 1) (c :: r) [] 0).1
    if out.length = 0 then ['.'] else out

/-- A plain name, as a directory entry has: not empty, without slash, and
neither `.` nor `..`. -/
def plainName (c : GoString) : Prop :=
  c ≠ [] ∧ '/' ∉ c ∧ c ≠ ['.'] ∧ c ≠ ['.', '.']

/-- The slash `Clean` writes before a real path element: none directly after
the leading slash of a rooted path, none at the start of a path. -/
def withSlash (rooted : Bool) (out : GoString) : GoString :=
  if (rooted = true ∧ out.length ≠ 1) ∨ (rooted = false ∧ out.length ≠ 0)
  then out ++ ['/'] else out

/-- The states `(out, dotdot)` the loop of `Clean` can be in: the leading
slash of a rooted path, or a run of `..` elements of a path that is not
rooted, followed by plain elements, with single slashes in between. -/
inductive Cleaned (rooted : Bool) : GoString → Nat → Prop
  | root : rooted = true → Cleaned rooted ['/'] 1
  | empty : rooted = false → Cleaned rooted [] 0
  | dotdot (o : GoString) : rooted = false → Cleaned rooted o o.length →
      Cleaned rooted ((if 0 < o.length then o ++ ['/'] else o) ++ ['.', '.'])
        ((if 0 < o.length then o ++ ['/'] else o) ++ ['.', '.']).length
  | elem (o : GoString) (dd : Nat) (e : GoString) : Cleaned rooted o dd → plainName e →
      Cleaned rooted (withSlash rooted o ++ e) dd

/-- The state of the loop of `Clean` at its end. -/
def cleanState (p : GoString) : GoString × Nat :=
  match p with
  | [] => ([], 0)
  | c :: r =>
    if c = '/' then cleanLoop true r.length r ['/'] 1
    else cleanLoop false (r.length + 1) (c :: r) [] 0

/-- The buffer `path.Join` builds before cleaning: the non-empty leading
elements and everything after them, separated by slashes. -/
def joinBuf : List GoString → GoString → GoString
  | [], buf => buf
  | e :: es, buf =>
    if 0 < buf.length ∨ e ≠ [] then
      joinBuf es ((if 0 < buf.length then buf ++ ['/'] else buf) ++ e)
    else joinBuf es buf

/-- `path.Join(elem...)`. -/
def Join (elem : List GoString) : GoString :=
  if (elem.map List.length).sum = 0 then []
  else Clean (joinBuf elem [])

end path

/-! ## Package `bufio` -/

namespace bufio

/-- `bufio.MaxScanTokenSize`: the size of the largest buffer a `Scanner`
made by `NewScanner` allocates. -/
def MaxScanTokenSize : Nat := 64 * 1024

/-- `dropCR` drops a terminal carriage return from the data. -/
def dropCR (data : GoString) : GoString :=
  if data.getLast? = some '\r' then data.dropLast else data

/-- The tokens that `for scanner.Scan() { ... scanner.Text() ... }` visits on
a reader holding `data`, with the default split function `ScanLines`: each
line without its end-of-line marker (one optional carriage return followed by
a newline), a last line without newline included.  A line that does not fit
the buffer (`MaxScanTokenSize` bytes, newline included) ends the scan with
`ErrTooLong`. -/
def scanLines : Nat → GoString → List GoString
  | 0, _ => []
  | fuel + 1, data =>
    if data = [] then []
    else
      let line := data.takeWhile (fun c => c ≠ '\n')
      if MaxScanTokenSize ≤ byteLen line then []
      else
        match data.dropWhile (fun c => c ≠ '\n') with
        | [] => [dropCR line]
        | _ :: rest => dropCR line :: scanLines fuel rest

/-- All tokens of a scanner reading `data` to the end. -/
def scanAll (data : GoString) : List GoString :=
  scanLines (data.length + 1) data

end bufio

/-! ## Package `time` -/

/-- A `time.Time`: its place on the time line, and the calendar year that
`Year()` reports for it in the local zone (the calendar arithmetic itself is
not modelled). -/
structure Time where
  instant : Int
  year : Int
deriving DecidableEq

namespace Time

/-- `t.After(u)` reports whether the instant `t` is after `u`. -/
def After (t u : Time) : Bool :=
  decide (u.instant < t.instant)

/-- `t.Year()`. -/
def Year (t : Time) : Int :=
  t.year

end Time

/-! ## `map[string]bool`

Every value the program stores is `true`, so a map is the list of its keys;
the order of the list has no meaning. -/

/-- A `map[string]bool` with all values `true`. -/
abbrev GoMap := List GoString

namespace GoMap

/-- `m[k] = true`. -/
def set (m : GoMap) (k : GoString) : GoMap :=
  if k ∈ m then m else m ++ [k]

/-- `m[k]`: `false` for a missing key. -/
def get (m : GoMap) (k : GoString) : Bool :=
  decide (k ∈ m)

end GoMap

/-! ## The operating system -/

/-- What a path of the file system holds. -/
inductive Node where
  | file (content : GoString)
  | dir
deriving DecidableEq

/-- The errors of the system calls that matter here. -/
inductive Errno where
  | ENOENT
  | ENOTDIR
  | EISDIR
  | EIO
deriving DecidableEq

/-- The file system: a map from cleaned path names to nodes. -/
abbrev FS := GoString → Option Node

/-- One entry of `os.ReadDir`: its name, whether `Type().IsRegular()` holds,
and the modification time `Info()` returns (`none` when `Info()` fails, as it
does for a file removed since the directory was read). -/
structure DirEntry where
  name : GoString
  isRegular : Bool
  info : Option Time
deriving DecidableEq

/-- The lines the program logs. -/
inductive LogLine where
  | startingSort
  | copying (src target : GoString)
  | skippingExists (src target : GoString)
  | sortComplete
  | sortCompleteNoChanges
  | sourceDidChange
  | stopping
deriving DecidableEq

/-- The system calls and log lines a run performs, in order. -/
inductive Event where
  | stat (p : GoString)
  | opened (p : GoString)
  | mkdirAll (p : GoString)
  | create (p : GoString)
  | readFrom (p : GoString)
  | write (p : GoString)
  | remove (p : GoString)
  | readDir (p : GoString)
  | log (line : LogLine)
deriving DecidableEq

/-- The world a pass runs in. `listing` is what `os.ReadDir(sourcePath)`
returns (`none`: an error); it is kept apart from `fs` because the directory
may change between the listing and the copy. `ioError p = some k` makes
writing to `p` fail after `k` characters. `rangeOrder` is the order in which
`range` visits the keys of a map. `trace` records what has been done. -/
structure World where
  fs : FS
  listing : Option (List DirEntry)
  ioError : GoString → Option Nat
  rangeOrder : List GoString → List GoString
  trace : List Event

namespace FS

/-- The file system with `p` holding `n`. -/
def insert (fs : FS) (p : GoString) (n : Node) : FS :=
  fun q => if q = p then some n else fs q

/-- The file system without `p`. -/
def erase (fs : FS) (p : GoString) : FS :=
  fun q => if q = p then none else fs q

end FS

namespace os

/-- `errors.Is(err, os.ErrNotExist)` for a system-call error. -/
def isNotExist (e : Errno) : Bool :=
  decide (e = Errno.ENOENT)

/-- The directories above `p`, outermost first: the parts of `p` before each
of its slashes (the root and the working directory always exist). -/
def ancestors (p : GoString) : List GoString :=
  (List.range p.length).filterMap
    (fun i => if 0 < i ∧ p[i]? = some '/' then some (p.take i) else none)

/-- Walks the directories `dirs` on the way to a path: the error of the first
one that is missing or is not a directory. -/
def walk (fs : FS) : List GoString → Option Errno
  | [] => none
  | a :: rest =>
    match fs a with
    | some Node.dir => walk fs rest
    | some (Node.file _) => some Errno.ENOTDIR
    | none => some Errno.ENOENT

/-- Path resolution: the node at `p`, or the error of the system call. -/
def lookup (fs : FS) (p : GoString) : Except Errno Node :=
  match walk fs (ancestors p) with
  | some e => Except.error e
  | none =>
    match fs p with
    | some n => Except.ok n
    | none => Except.error Errno.ENOENT

/-- Something exists at `p`. -/
def Exists (fs : FS) (p : GoString) : Prop :=
  ∃ n, lookup fs p = Except.ok n

/-- `os.Stat(p)`: only the error is used by the program. -/
def Stat (w : World) (p : GoString) : Option Errno × World :=
  let w1 := { w with trace := w.trace ++ [Event.stat p] }
  match lookup w.fs p with
  | Except.ok _ => (none, w1)
  | Except.error e => (some e, w1)

/-- `os.Open(p)`: the node opened for reading, or the error. -/
def Open (w : World) (p : GoString) : Except Errno Node × World :=
  (lookup w.fs p, { w with trace := w.trace ++ [Event.opened p] })

/-- The directories `os.MkdirAll` makes on the way down `dirs`: it stops at
the first one that exists and is not a directory. -/
def mkdirWalk (fs : FS) : List GoString → FS
  | [] => fs
  | a :: rest =>
    match fs a with
    | some Node.dir => mkdirWalk fs rest
    | some (Node.file _) => fs
    | none => mkdirWalk (fs.insert a Node.dir) rest

/-- `os.MkdirAll(p, 0700)`, its error dropped as the program drops it. -/
def MkdirAll (w : World) (p : GoString) : World :=
  { w with
    fs := mkdirWalk w.fs (ancestors p ++ [p])
    trace := w.trace ++ [Event.mkdirAll p] }

/-- `os.Create(p)`: creates or truncates the file at `p`; `false` on error
(a missing parent directory, or a directory at `p`). -/
def Create (w : World) (p : GoString) : Bool × World :=
  let w1 := { w with trace := w.trace ++ [Event.create p] }
  match walk w.fs (ancestors p) with
  | some _ => (false, w1)
  | none =>
    match w.fs p with
    | some Node.dir => (false, w1)
    | _ => (true, { w1 with fs := w.fs.insert p (Node.file []) })

/-- Writes `content` to the file just created at `p`; `false` when the write
fails part way (`ioError`), leaving what was written before. -/
def writeAll (w : World) (p : GoString) (content : GoString) : Bool × World :=
  match w.ioError p with
  | some k => (false, { w with fs := w.fs.insert p (Node.file (content.take k)) })
  | none => (true, { w with fs := w.fs.insert p (Node.file content) })

/-- `dst.ReadFrom(src)` for the file created at `p` and the node opened as
`src`: reading a directory fails. -/
def ReadFrom (w : World) (p : GoString) (src : Node) : Bool × World :=
  let w1 := { w with trace := w.trace ++ [Event.readFrom p] }
  match src with
  | Node.dir => (false, w1)
  | Node.file content => writeAll w1 p content

/-- `os.Remove(p)`, its error dropped. -/
def Remove (w : World) (p : GoString) : World :=
  let w1 := { w with trace := w.trace ++ [Event.remove p] }
  match lookup w.fs p with
  | Except.ok (Node.file _) => { w1 with fs := w.fs.erase p }
  | _ => w1

/-- `os.ReadDir(p)` for the source directory. -/
def ReadDir (w : World) (p : GoString) : Option (List DirEntry) × World :=
  (w.listing, { w with trace := w.trace ++ [Event.readDir p] })

end os

/-- `log.Println` of one of the program's lines. -/
def logPrintln (w : World) (line : LogLine) : World :=
  { w with trace := w.trace ++ [Event.log line] }

/-! ## The program -/

/-- The settings of a run: the two flags, and the directory
`os.UserCacheDir()` returns. -/
structure Config where
  sourcePath : GoString
  targetPath : GoString
  cacheDir : GoString

/-- `getSeenPath()`. -/
def getSeenPath (cfg : Config) : GoString :=
  path.Join [cfg.cacheDir, "photosorter".toList, "seen".toList]

/-- The map `getSeen` builds from the text of the seen file. -/
def parseSeen (content : GoString) : GoMap :=
  (bufio.scanAll content).foldl GoMap.set []

/-- `getSeen()`: the empty map when the file cannot be opened. -/
def getSeen (cfg : Config) (w : World) : GoMap × World :=
  match os.Open w (getSeenPath cfg) with
  | (Except.ok (Node.file content), w1) => (parseSeen content, w1)
  | (Except.ok Node.dir, w1) => ([], w1)
  | (Except.error _, w1) => ([], w1)

/-- The text `setSeen` writes for the keys in the order `range` visits them:
each key followed by a newline. -/
def seenText : List GoString → GoString
  | [] => []
  | key :: rest => key ++ '\n' :: seenText rest

/-- `setSeen(seenFiles)`: nothing is written when the file cannot be
created. -/
def setSeen (cfg : Config) (w : World) (seenFiles : GoMap) : World :=
  match os.Create w (getSeenPath cfg) with
  | (false, w1) => w1
  | (true, w1) =>
    (os.writeAll { w1 with trace := w1.trace ++ [Event.write (getSeenPath cfg)] }
      (getSeenPath cfg) (seenText (w.rangeOrder seenFiles))).2

/-- The file to copy: `sourceFile` of `processFile`. -/
def sourceFile (cfg : Config) (name : GoString) : GoString :=
  path.Join [cfg.sourcePath, name]

/-- The destination of a file: `targetFile` of `processFile`. -/
def targetFile (cfg : Config) (name : GoString) (modified : Time) : GoString :=
  path.Join [path.Join [cfg.targetPath, strconv.Itoa modified.Year], name]

/-- `processFile(name, modified)`. -/
def processFile (cfg : Config) (w : World) (name : GoString) (modified : Time) : World :=
  let sourceFile := path.Join [cfg.sourcePath, name]
  let targetDir := path.Join [cfg.targetPath, strconv.Itoa modified.Year]
  let targetFile := path.Join [targetDir, name]
  match os.Stat w targetFile with
  | (some e, w1) =>
    if os.isNotExist e then
      let w2 := logPrintln w1 (LogLine.copying sourceFile targetFile)
      match os.Open w2 sourceFile with
      | (Except.error _, w3) => w3
      | (Except.ok r, w3) =>
        let w4 := os.MkdirAll w3 targetDir
        match os.Create w4 targetFile with
        | (false, w5) => w5
        | (true, w5) =>
          match os.ReadFrom w5 targetFile r with
          | (true, w6) => w6
          | (false, w6) =>
            -- Try to clean up for next time
            os.Remove w6 targetFile
    else logPrintln w1 (LogLine.skippingExists sourceFile targetFile)
  | (none, w1) => logPrintln w1 (LogLine.skippingExists sourceFile targetFile)

/-- The variables of the loop of `doSort`; `calls` lists the calls of
`processFile` made so far, with their arguments. -/
structure SortState where
  world : World
  newSeenFiles : GoMap
  didProcess : Bool
  calls : List (GoString × Time)

/-- One round of the loop of `doSort`, for the entry `file`. -/
def doSortStep (cfg : Config) (seenFiles : GoMap) (st : SortState) (file : DirEntry) :
    SortState :=
  if strings.HasPrefix file.name ['.'] then st
  else if file.isRegular = false then st
  else
    match file.info with
    | none => st
    | some modTime =>
      let st1 := { st with newSeenFiles := st.newSeenFiles.set file.name }
      if seenFiles.get file.name then st1
      else
        { st1 with
          world := processFile cfg st1.world file.name modTime
          didProcess := true
          calls := st1.calls ++ [(file.name, modTime)] }

/-- The loop of `doSort` over the listing `files`, for the seen map
`seenFiles` read at the start of the pass. -/
def doSortLoop (cfg : Config) (seenFiles : GoMap) (files : List DirEntry) (w : World) :
    SortState :=
  files.foldl (doSortStep cfg seenFiles)
    { world := w, newSeenFiles := [], didProcess := false, calls := [] }

/-- The body of `doSort()` after `seenFiles := getSeen()`: `none` when
`os.ReadDir` fails and `log.Fatal` ends the process. -/
def doSortFrom (cfg : Config) (seenFiles : GoMap) (w : World) : Option SortState :=
  match os.ReadDir w cfg.sourcePath with
  | (none, _) => none
  | (some files, w1) =>
    let st := doSortLoop cfg seenFiles files w1
    let w2 := setSeen cfg st.world st.newSeenFiles
    let w3 := logPrintln w2
      (if st.didProcess then LogLine.sortComplete else LogLine.sortCompleteNoChanges)
    some { st with world := w3 }

/-- `doSort()`. -/
def doSort (cfg : Config) (w : World) : Option SortState :=
  match getSeen cfg (logPrintln w LogLine.startingSort) with
  | (seenFiles, w1) => doSortFrom cfg seenFiles w1

/-- A candidate of a pass: a regular entry that is not hidden and whose
`Info()` succeeded. -/
def DirEntry.isCandidate (file : DirEntry) : Bool :=
  !strings.HasPrefix file.name ['.'] && file.isRegular && file.info.isSome

/-- The call of `processFile` that the loop of `doSort` makes for `file`, if
any: one for a candidate whose name the seen map lacks. -/
def callOf (seenFiles : GoMap) (file : DirEntry) : Option (GoString × Time) :=
  if file.isCandidate = true ∧ seenFiles.get file.name = false then
    file.info.map (fun t => (file.name, t))
  else none

/-- The seen maps of a run of passes over the listings `listings`, each pass
reading the map the pass before it wrote: the calls of `processFile` of all
passes, in order. -/
def passCalls (cfg : Config) : GoMap → List (List DirEntry × World) → List (GoString × Time)
  | _, [] => []
  | seenFiles, (files, w) :: rest =>
    (doSortLoop cfg seenFiles files w).calls ++
      passCalls cfg (doSortLoop cfg seenFiles files w).newSeenFiles rest

/-! ### The run loop -/

/-- What the `select` of `sortWorker` receives. -/
inductive Received where
  | stopping
  | changeTime (t : Time)
deriving DecidableEq

/-- The state of `sortWorker`: `lastRun`, the number of passes started so
far, and whether the process has exited. -/
structure Worker where
  lastRun : Time
  passes : Nat
  exited : Bool
deriving DecidableEq

/-- The start of `sortWorker`: `lastRun := time.Now()` and the initial
sort. -/
def sortWorkerInit (now : Time) : Worker :=
  { lastRun := now, passes := 1, exited := false }

/-- One round of the loop of `sortWorker`: `msg` is what the `select`
receives and `now` what `time.Now()` returns in this round. -/
def sortWorkerStep (s : Worker) (msg : Received) (now : Time) : Worker :=
  if s.exited then s
  else
    match msg with
    | Received.stopping => { s with exited := true }
    | Received.changeTime t =>
      if t.After s.lastRun then { s with lastRun := now, passes := s.passes + 1 }
      else s

/-- The loop of `sortWorker` over the messages received, each with the clock
reading of its round. -/
def sortWorkerLoop (s : Worker) (msgs : List (Received × Time)) : Worker :=
  msgs.foldl (fun st m => sortWorkerStep st m.1 m.2) s

/-! ### The watcher and its channel -/

/-- The capacity of `changeTimes`: `make(chan time.Time, 1024)`. -/
def changeTimesCap : Nat := 1024

/-- The kinds of notification `fsnotify` delivers. -/
inductive Op where
  | create
  | write
  | remove
  | rename
  | chmod
deriving DecidableEq

/-- The channel `changeTimes` and the watcher: `buf` is the queue, oldest
first; `sending = some t` when the watcher is blocked in
`changeTimes <- t`. -/
structure Watch where
  buf : List Time
  sending : Option Time
deriving DecidableEq

/-- One round of `for range w.Events { changeTimes <- time.Now() }` for a
notification of kind `op` at clock reading `now`. The send completes when
the queue has room; when it is full the watcher blocks in the send, holding
`now`. A watcher that is blocked is not at the `range` and takes no
notification. -/
def watcherStep (s : Watch) (_op : Op) (now : Time) : Watch :=
  match s.sending with
  | some _ => s
  | none =>
    if s.buf.length < changeTimesCap then { s with buf := s.buf ++ [now] }
    else { s with sending := some now }

/-- The receive `t := <-changeTimes` of `sortWorker`: the oldest timestamp
leaves the queue, and a blocked send of the watcher completes. `none` when
the queue is empty. -/
def receive (s : Watch) : Option (Time × Watch) :=
  match s.buf with
  | [] => none
  | t :: rest =>
    match s.sending with
    | some v => some (t, { buf := rest ++ [v], sending := none })
    | none => some (t, { buf := rest, sending := none })

/-! ## Sample data -/

/-- The settings of the sample runs: `-s src -t tgt`, cache directory
`cache`. -/
def sampleConfig : Config :=
  { sourcePath := "src".toList, targetPath := "tgt".toList, cacheDir := "cache".toList }

/-- A modification time in 2023. -/
def time2023 : Time := { instant := 1682935200, year := 2023 }

/-- A modification time in 2024. -/
def time2024 : Time := { instant := 1714557600, year := 2024 }

/-- A file system with the directories `src`, `tgt`, `cache` and
`cache/photosorter`, and the photo `src/a.jpg`. -/
def sampleFS : FS := fun p =>
  if p = "src/a.jpg".toList then some (Node.file "JPEG".toList)
  else if p = "src".toList ∨ p = "tgt".toList ∨ p = "cache".toList ∨
      p = "cache/photosorter".toList then some Node.dir
  else none

/-- A world over the file system `fs` whose source directory lists `files`:
no write fails, and `range` visits map keys in the order of insertion. -/
def worldOf (fs : FS) (files : List DirEntry) : World :=
  { fs := fs, listing := some files, ioError := fun _ => none,
    rangeOrder := fun keys => keys, trace := [] }

/-- The listing of the scenario of the specification: a hidden file, the
photo `a.jpg` and a subdirectory. -/
def sampleListing : List DirEntry :=
  [ { name := ".hidden".toList, isRegular := true, info := some time2023 },
    { name := "a.jpg".toList, isRegular := true, info := some time2023 },
    { name := "sub".toList, isRegular := false, info := some time2023 } ]

/-- A listing whose only entry is a regular file removed before `Info()` is
called on it. -/
def vanishedListing : List DirEntry :=
  [ { name := "a.jpg".toList, isRegular := true, info := none } ]

/-- A listing whose first entry, `gone.jpg`, is removed from the source
directory after `Info()` and before the copy: `sampleFS` does not hold it. -/
def goneListing : List DirEntry :=
  [ { name := "gone.jpg".toList, isRegular := true, info := some time2023 },
    { name := "a.jpg".toList, isRegular := true, info := some time2024 } ]

/-- A clock reading: only the instant matters to the run loop. -/
def clock (n : Int) : Time := { instant := n, year := 2023 }

/-- The channel filled to its capacity with the reading `clock 1`, the
watcher at its `range`. -/
def fullWatch : Watch :=
  { buf := List.replicate changeTimesCap (clock 1), sending := none }

/-- `name` is the name of a candidate of the listing `files`. -/
def listsCandidate (name : GoString) (files : List DirEntry) : Prop :=
  ∃ f ∈ files, f.isCandidate = true ∧ f.name = name

/-- Listing of the first pass of the three-pass run: `a.jpg`, modified in
2023. -/
def listing2023 : List DirEntry :=
  [ { name := "a.jpg".toList, isRegular := true, info := some time2023 } ]

/-- Listing of the third pass: `a.jpg` again, modified in 2024. -/
def listing2024 : List DirEntry :=
  [ { name := "a.jpg".toList, isRegular := true, info := some time2024 } ]

/-- The world of the first pass of the three-pass run. -/
def world1 : World := worldOf sampleFS listing2023

/-- The world of the second pass: that left by the first pass, after
`a.jpg` was removed from the source directory. -/
def world2 : World :=
  { (doSortLoop sampleConfig [] listing2023 world1).world with
    fs := (doSortLoop sampleConfig [] listing2023 world1).world.fs.erase "src/a.jpg".toList
    listing := some [] }

/-- The seen map the second pass reads. -/
def seen2 : GoMap := (doSortLoop sampleConfig [] listing2023 world1).newSeenFiles

/-- The world of the third pass: that left by the second pass, after a file
`a.jpg` with other content was put into the source directory. -/
def world3 : World :=
  { (doSortLoop sampleConfig seen2 [] world2).world with
    fs := (doSortLoop sampleConfig seen2 [] world2).world.fs.insert "src/a.jpg".toList
      (Node.file "JPEG2".toList)
    listing := some listing2024 }

/-- The seen map the third pass reads. -/
def seen3 : GoMap := (doSortLoop sampleConfig seen2 [] world2).newSeenFiles

/-- A file system like `sampleFS` in which `tgt/2023` is a regular file, not
a directory. -/
def blockedFS : FS := fun p =>
  if p = "tgt/2023".toList then some (Node.file "note".toList) else sampleFS p

/-- A file system like `sampleFS` that holds a file at the destination of
`a.jpg` already. -/
def copiedFS : FS := fun p =>
  if p = "tgt/2023/a.jpg".toList then some (Node.file "OLD".toList)
  else if p = "tgt/2023".toList then some Node.dir
  else sampleFS p

/-- A listing whose only entry is a regular file named `a\r`. -/
def crListing : List DirEntry :=
  [ { name := "a\r".toList, isRegular := true, info := some time2023 } ]

/-- A file system like `sampleFS` whose source directory holds `a\r`. -/
def crFS : FS := fun p =>
  if p = "src/a\r".toList then some (Node.file "JPEG".toList) else sampleFS p

/-! ## The loop of `doSort` -/

theorem GoMap.mem_set (m : GoMap) (k x : GoString) :
    x ∈ GoMap.set m k ↔ x ∈ m ∨ x = k := by
  unfold GoMap.set
  by_cases h : k ∈ m
  · simp only [h, if_true]
    constructor
    · intro hx
      exact Or.inl hx
    · rintro (hx | hx)
      · exact hx
      · exact hx ▸ h
  · simp [h]

theorem doSortStep_of_not_candidate (cfg : Config) (seenFiles : GoMap) (st : SortState)
    (file : DirEntry) (h : file.isCandidate = false) :
    doSortStep cfg seenFiles st file = st := by
  unfold doSortStep
  unfold DirEntry.isCandidate at h
  by_cases h1 : strings.HasPrefix file.name ['.'] = true
  · simp [h1]
  · by_cases h2 : file.isRegular = false
    · simp [h1, h2]
    · cases hi : file.info with
      | none => simp [h1, h2]
      | some t => simp [h1, h2, hi] at h

theorem doSortStep_of_seen (cfg : Config) (seenFiles : GoMap) (st : SortState)
    (file : DirEntry) (h : file.isCandidate = true) (hs : seenFiles.get file.name = true) :
    doSortStep cfg seenFiles st file =
      { st with newSeenFiles := st.newSeenFiles.set file.name } := by
  unfold doSortStep
  unfold DirEntry.isCandidate at h
  cases hi : file.info with
  | none => simp [hi] at h
  | some t =>
    simp only [hi, Bool.and_eq_true, Bool.not_eq_true_eq_eq_false, Option.isSome_some,
      and_true] at h
    simp [h.1, h.2, hs]

theorem doSortStep_of_unseen (cfg : Config) (seenFiles : GoMap) (st : SortState)
    (file : DirEntry) (t : Time) (h : file.isCandidate = true) (hi : file.info = some t)
    (hs : seenFiles.get file.name = false) :
    doSortStep cfg seenFiles st file =
      { world := processFile cfg st.world file.name t
        newSeenFiles := st.newSeenFiles.set file.name
        didProcess := true
        calls := st.calls ++ [(file.name, t)] } := by
  unfold doSortStep
  unfold DirEntry.isCandidate at h
  simp only [hi, Bool.and_eq_true, Bool.not_eq_true_eq_eq_false, Option.isSome_some,
    and_true] at h
  simp [h.1, h.2, hs, hi]

theorem foldl_doSortStep_calls (cfg : Config) (seenFiles : GoMap) (files : List DirEntry) :
    ∀ st : SortState, (files.foldl (doSortStep cfg seenFiles) st).calls =
      st.calls ++ files.filterMap (callOf seenFiles) := by
  induction files with
  | nil => intro st; simp
  | cons file rest ih =>
    intro st
    rw [List.foldl_cons, ih]
    by_cases hc : file.isCandidate = true
    · cases hs : seenFiles.get file.name with
      | true =>
        rw [doSortStep_of_seen cfg seenFiles st file hc hs]
        simp [callOf, hc, hs]
      | false =>
        have hsome : file.info.isSome = true := by
          unfold DirEntry.isCandidate at hc
          simp only [Bool.and_eq_true] at hc
          exact hc.2
        obtain ⟨t, ht⟩ := Option.isSome_iff_exists.mp hsome
        rw [doSortStep_of_unseen cfg seenFiles st file t hc ht hs]
        simp [callOf, hc, hs, ht]
    · have hc2 : file.isCandidate = false := by simpa using hc
      rw [doSortStep_of_not_candidate cfg seenFiles st file hc2]
      simp [callOf, hc2]

theorem foldl_doSortStep_mem_newSeen (cfg : Config) (seenFiles : GoMap)
    (files : List DirEntry) (x : GoString) :
    ∀ st : SortState, x ∈ (files.foldl (doSortStep cfg seenFiles) st).newSeenFiles ↔
      x ∈ st.newSeenFiles ∨ ∃ f ∈ files, f.isCandidate = true ∧ f.name = x := by
  induction files with
  | nil => intro st; simp
  | cons file rest ih =>
    intro st
    rw [List.foldl_cons, ih]
    by_cases hc : file.isCandidate = true
    · have hnew : (doSortStep cfg seenFiles st file).newSeenFiles =
          st.newSeenFiles.set file.name := by
        cases hs : seenFiles.get file.name with
        | true => rw [doSortStep_of_seen cfg seenFiles st file hc hs]
        | false =>
          have hsome : file.info.isSome = true := by
            unfold DirEntry.isCandidate at hc
            simp only [Bool.and_eq_true] at hc
            exact hc.2
          obtain ⟨t, ht⟩ := Option.isSome_iff_exists.mp hsome
          rw [doSortStep_of_unseen cfg seenFiles st file t hc ht hs]
      rw [hnew, GoMap.mem_set]
      constructor
      · rintro ((hx | hx) | ⟨f, hf, hfc, hfx⟩)
        · exact Or.inl hx
        · exact Or.inr ⟨file, List.mem_cons_self _ _, hc, hx.symm⟩
        · exact Or.inr ⟨f, List.mem_cons_of_mem _ hf, hfc, hfx⟩
      · rintro (hx | ⟨f, hf, hfc, hfx⟩)
        · exact Or.inl (Or.inl hx)
        · rcases List.mem_cons.mp hf with rfl | hf
          · exact Or.inl (Or.inr hfx.symm)
          · exact Or.inr ⟨f, hf, hfc, hfx⟩
    · have hc2 : file.isCandidate = false := by simpa using hc
      rw [doSortStep_of_not_candidate cfg seenFiles st file hc2]
      constructor
      · rintro (hx | ⟨f, hf, hfc, hfx⟩)
        · exact Or.inl hx
        · exact Or.inr ⟨f, List.mem_cons_of_mem _ hf, hfc, hfx⟩
      · rintro (hx | ⟨f, hf, hfc, hfx⟩)
        · exact Or.inl hx
        · rcases List.mem_cons.mp hf with rfl | hf
          · rw [hc2] at hfc; exact absurd hfc (by decide)
          · exact Or.inr ⟨f, hf, hfc, hfx⟩

theorem foldl_doSortStep_newSeen_indep (cfg cfg2 : Config) (seenFiles seenFiles2 : GoMap)
    (files : List DirEntry) :
    ∀ st st2 : SortState, st.newSeenFiles = st2.newSeenFiles →
      (files.foldl (doSortStep cfg seenFiles) st).newSeenFiles =
        (files.foldl (doSortStep cfg2 seenFiles2) st2).newSeenFiles := by
  induction files with
  | nil => intro st st2 h; simpa using h
  | cons file rest ih =>
    intro st st2 h
    rw [List.foldl_cons, List.foldl_cons]
    apply ih
    have key : ∀ (c : Config) (s : GoMap) (σ : SortState),
        (doSortStep c s σ file).newSeenFiles =
          if file.isCandidate = true then σ.newSeenFiles.set file.name
          else σ.newSeenFiles := by
      intro c s σ
      by_cases hc : file.isCandidate = true
      · rw [if_pos hc]
        cases hs : s.get file.name with
        | true => rw [doSortStep_of_seen c s σ file hc hs]
        | false =>
          have hsome : file.info.isSome = true := by
            unfold DirEntry.isCandidate at hc
            simp only [Bool.and_eq_true] at hc
            exact hc.2
          obtain ⟨t, ht⟩ := Option.isSome_iff_exists.mp hsome
          rw [doSortStep_of_unseen c s σ file t hc ht hs]
      · rw [if_neg hc]
        have hc2 : file.isCandidate = false := by simpa using hc
        rw [doSortStep_of_not_candidate c s σ file hc2]
    rw [key, key, h]

theorem foldl_doSortStep_quiet (cfg : Config) (seenFiles : GoMap) (files : List DirEntry)
    (hall : ∀ f ∈ files, f.isCandidate = true → seenFiles.get f.name = true) :
    ∀ st : SortState,
      (files.foldl (doSortStep cfg seenFiles) st).world = st.world ∧
      (files.foldl (doSortStep cfg seenFiles) st).didProcess = st.didProcess := by
  induction files with
  | nil => intro st; simp
  | cons file rest ih =>
    intro st
    rw [List.foldl_cons]
    have ih2 := ih (fun f hf => hall f (List.mem_cons_of_mem _ hf))
      (doSortStep cfg seenFiles st file)
    by_cases hc : file.isCandidate = true
    · have hs := hall file (List.mem_cons_self _ _) hc
      have hstep := doSortStep_of_seen cfg seenFiles st file hc hs
      rw [hstep] at ih2 ⊢
      exact ih2
    · have hc2 : file.isCandidate = false := by simpa using hc
      have hstep := doSortStep_of_not_candidate cfg seenFiles st file hc2
      rw [hstep] at ih2 ⊢
      exact ih2

theorem doSortLoop_calls (cfg : Config) (seenFiles : GoMap) (files : List DirEntry)
    (w : World) :
    (doSortLoop cfg seenFiles files w).calls = files.filterMap (callOf seenFiles) := by
  unfold doSortLoop
  rw [foldl_doSortStep_calls]
  simp

theorem doSortLoop_mem_newSeen (cfg : Config) (seenFiles : GoMap) (files : List DirEntry)
    (w : World) (x : GoString) :
    x ∈ (doSortLoop cfg seenFiles files w).newSeenFiles ↔
      ∃ f ∈ files, f.isCandidate = true ∧ f.name = x := by
  unfold doSortLoop
  rw [foldl_doSortStep_mem_newSeen]
  simp

theorem callOf_eq_some (seenFiles : GoMap) (f : DirEntry) (call : GoString × Time)
    (h : callOf seenFiles f = some call) :
    f.isCandidate = true ∧ seenFiles.get f.name = false ∧ f.name = call.1 ∧
      f.info = some call.2 := by
  unfold callOf at h
  by_cases hc : f.isCandidate = true ∧ seenFiles.get f.name = false
  · rw [if_pos hc] at h
    cases hi : f.info with
    | none => rw [hi] at h; simp at h
    | some t =>
      rw [hi] at h
      simp only [Option.map_some', Option.some.injEq] at h
      subst h
      exact ⟨hc.1, hc.2, rfl, rfl⟩
  · rw [if_neg hc] at h
    exact absurd h (by simp)

theorem isCandidate_iff (f : DirEntry) :
    f.isCandidate = true ↔
      strings.HasPrefix f.name ['.'] = false ∧ f.isRegular = true ∧ f.info.isSome = true := by
  unfold DirEntry.isCandidate
  simp [Bool.and_eq_true, and_assoc]

theorem doSortFrom_eq (cfg : Config) (seenFiles : GoMap) (w : World) (files : List DirEntry)
    (h : w.listing = some files) :
    doSortFrom cfg seenFiles w =
      some { doSortLoop cfg seenFiles files (os.ReadDir w cfg.sourcePath).2 with
        world := logPrintln
          (setSeen cfg (doSortLoop cfg seenFiles files (os.ReadDir w cfg.sourcePath).2).world
            (doSortLoop cfg seenFiles files (os.ReadDir w cfg.sourcePath).2).newSeenFiles)
          (if (doSortLoop cfg seenFiles files (os.ReadDir w cfg.sourcePath).2).didProcess
            then LogLine.sortComplete else LogLine.sortCompleteNoChanges) } := by
  unfold doSortFrom os.ReadDir
  simp [h]

/-- C1: the loop of `doSort` never calls `processFile` for an entry whose
name is in the seen map read at the start of the pass, whatever the entry's
modification time and whatever the world holds; every call it makes is for a
regular entry of the listing that is not hidden and whose name the seen map
lacks. -/
theorem C1_dedup_by_name (cfg : Config) (seenFiles : GoMap) (files : List DirEntry)
    (w : World) :
    (∀ f ∈ files, f.name ∈ seenFiles →
      ∀ call ∈ (doSortLoop cfg seenFiles files w).calls, call.1 ≠ f.name) ∧
    (∀ call ∈ (doSortLoop cfg seenFiles files w).calls,
      call.1 ∉ seenFiles ∧
      ∃ f ∈ files, f.name = call.1 ∧ f.info = some call.2 ∧ f.isRegular = true ∧
        strings.HasPrefix f.name ['.'] = false) := by
  have key : ∀ call ∈ (doSortLoop cfg seenFiles files w).calls,
      call.1 ∉ seenFiles ∧
      ∃ f ∈ files, f.name = call.1 ∧ f.info = some call.2 ∧ f.isRegular = true ∧
        strings.HasPrefix f.name ['.'] = false := by
    intro call hcall
    rw [doSortLoop_calls, List.mem_filterMap] at hcall
    obtain ⟨f, hf, hfc⟩ := hcall
    obtain ⟨hc, hs, hn, hi⟩ := callOf_eq_some seenFiles f call hfc
    obtain ⟨hh, hr, _⟩ := (isCandidate_iff f).mp hc
    refine ⟨?_, f, hf, hn, hi, hr, hh⟩
    rw [← hn]
    intro hmem
    unfold GoMap.get at hs
    simp [hmem] at hs
  refine ⟨?_, key⟩
  intro f _ hseen call hcall heq
  exact (key call hcall).1 (heq ▸ hseen)

/-- C2, as the claim states it, fails: a regular entry `a.jpg` that is not
hidden but whose `Info()` fails is in the listing and its name is not in the
map handed to `setSeen`. -/
theorem C2_counterexample :
    (∃ f ∈ vanishedListing, f.name = "a.jpg".toList ∧ f.isRegular = true ∧
      strings.HasPrefix f.name ['.'] = false) ∧
    "a.jpg".toList ∉
      (doSortLoop sampleConfig [] vanishedListing (worldOf sampleFS vanishedListing)).newSeenFiles := by
  refine ⟨⟨_, List.mem_singleton.mpr rfl, rfl, rfl, by decide⟩, ?_⟩
  rw [doSortLoop_mem_newSeen]
  rintro ⟨f, hf, hc, _⟩
  rw [vanishedListing, List.mem_singleton] at hf
  subst hf
  exact absurd hc (by decide)

/-- C2, amended: the map that `doSort` hands to `setSeen` holds exactly the
names of the regular entries of the listing that are not hidden and whose
`Info()` succeeded; it is the same for every input seen map and every world
(so for every outcome of the copies, a source file that is gone when
`processFile` opens it included); and a pass whose directory can be listed
always runs to its end. -/
theorem C2_seen_set_exact (cfg : Config) (seenFiles : GoMap) (files : List DirEntry)
    (w : World) :
    (∀ x, x ∈ (doSortLoop cfg seenFiles files w).newSeenFiles ↔
      ∃ f ∈ files, f.name = x ∧ f.isRegular = true ∧
        strings.HasPrefix f.name ['.'] = false ∧ f.info.isSome = true) ∧
    (∀ (cfg2 : Config) (seenFiles2 : GoMap) (w2 : World),
      (doSortLoop cfg2 seenFiles2 files w2).newSeenFiles =
        (doSortLoop cfg seenFiles files w).newSeenFiles) ∧
    (w.listing = some files →
      ∃ st, doSortFrom cfg seenFiles w = some st ∧
        st.newSeenFiles = (doSortLoop cfg seenFiles files w).newSeenFiles) := by
  refine ⟨?_, ?_, ?_⟩
  · intro x
    rw [doSortLoop_mem_newSeen]
    constructor
    · rintro ⟨f, hf, hc, hx⟩
      obtain ⟨hh, hr, hi⟩ := (isCandidate_iff f).mp hc
      exact ⟨f, hf, hx, hr, hh, hi⟩
    · rintro ⟨f, hf, hx, hr, hh, hi⟩
      exact ⟨f, hf, (isCandidate_iff f).mpr ⟨hh, hr, hi⟩, hx⟩
  · intro cfg2 seenFiles2 w2
    unfold doSortLoop
    exact foldl_doSortStep_newSeen_indep cfg2 cfg seenFiles2 seenFiles files _ _ rfl
  · intro h
    rw [doSortFrom_eq cfg seenFiles w files h]
    refine ⟨_, rfl, ?_⟩
    unfold doSortLoop
    exact foldl_doSortStep_newSeen_indep cfg cfg seenFiles seenFiles files _ _ rfl

/-- C2, a run of the amended claim: `gone.jpg` is listed but gone from the
source directory when `processFile` opens it. The pass runs to its end, hands
`gone.jpg` and `a.jpg` to `setSeen`, and has copied `a.jpg` after the failed
copy. -/
theorem C2_seen_set_exact_witness :
    (worldOf sampleFS goneListing).listing = some goneListing ∧
    sampleFS "src/gone.jpg".toList = none ∧
    (∃ st, doSortFrom sampleConfig [] (worldOf sampleFS goneListing) = some st ∧
      st.newSeenFiles =
        (doSortLoop sampleConfig [] goneListing (worldOf sampleFS goneListing)).newSeenFiles) ∧
    (doSortLoop sampleConfig [] goneListing (worldOf sampleFS goneListing)).newSeenFiles =
      ["gone.jpg".toList, "a.jpg".toList] ∧
    (doSortLoop sampleConfig [] goneListing (worldOf sampleFS goneListing)).world.fs
      "tgt/2024/a.jpg".toList = some (Node.file "JPEG".toList) :=
  ⟨rfl, by decide,
    (C2_seen_set_exact sampleConfig [] goneListing (worldOf sampleFS goneListing)).2.2 rfl,
    by decide, by decide⟩

theorem mem_eq_of_name_eq {files : List DirEntry} (hnodup : (files.map DirEntry.name).Nodup)
    {e f : DirEntry} (he : e ∈ files) (hf : f ∈ files) (h : f.name = e.name) : f = e :=
  List.inj_on_of_nodup_map hnodup hf he h

/-- C5: in a listing (its names are distinct), an entry whose name starts
with `.` or that is not a regular file is never passed to `processFile`, and
its name is not in the map the pass hands to `setSeen`, for every input seen
map and every world. -/
theorem C5_hidden_nonregular_excluded (cfg : Config) (seenFiles : GoMap)
    (files : List DirEntry) (w : World) (e : DirEntry) (he : e ∈ files)
    (hnodup : (files.map DirEntry.name).Nodup)
    (hex : strings.HasPrefix e.name ['.'] = true ∨ e.isRegular = false) :
    (∀ call ∈ (doSortLoop cfg seenFiles files w).calls, call.1 ≠ e.name) ∧
    e.name ∉ (doSortLoop cfg seenFiles files w).newSeenFiles := by
  have hnot : ∀ f ∈ files, f.isCandidate = true → f.name ≠ e.name := by
    intro f hf hc hname
    have hfe := mem_eq_of_name_eq hnodup he hf hname
    subst hfe
    obtain ⟨hh, hr, _⟩ := (isCandidate_iff f).mp hc
    rcases hex with hex | hex
    · rw [hh] at hex; exact absurd hex (by decide)
    · rw [hr] at hex; exact absurd hex (by decide)
  constructor
  · intro call hcall heq
    rw [doSortLoop_calls, List.mem_filterMap] at hcall
    obtain ⟨f, hf, hfc⟩ := hcall
    obtain ⟨hc, _, hn, _⟩ := callOf_eq_some seenFiles f call hfc
    exact hnot f hf hc (hn.trans heq)
  · rw [doSortLoop_mem_newSeen]
    rintro ⟨f, hf, hc, hx⟩
    exact hnot f hf hc hx

/-- C5 at the listing of the specification's scenario, for the directory
`sub`: it is not copied and not recorded. -/
theorem C5_hidden_nonregular_excluded_witness :
    (∀ call ∈ (doSortLoop sampleConfig [] sampleListing
        (worldOf sampleFS sampleListing)).calls, call.1 ≠ "sub".toList) ∧
    "sub".toList ∉
      (doSortLoop sampleConfig [] sampleListing (worldOf sampleFS sampleListing)).newSeenFiles :=
  C5_hidden_nonregular_excluded sampleConfig [] sampleListing (worldOf sampleFS sampleListing)
    { name := "sub".toList, isRegular := false, info := some time2023 }
    (by decide) (by decide) (Or.inr rfl)

theorem setSeen_fs (cfg : Config) (w : World) (m : GoMap) (p : GoString)
    (hp : p ≠ getSeenPath cfg) : (setSeen cfg w m).fs p = w.fs p := by
  unfold setSeen os.Create os.writeAll
  cases hw : os.walk w.fs (os.ancestors (getSeenPath cfg)) with
  | some e => simp
  | none =>
    cases hn : w.fs (getSeenPath cfg) with
    | none =>
      cases hio : w.ioError (getSeenPath cfg) <;> simp [hn, hio, FS.insert, hp]
    | some n =>
      cases n with
      | dir => simp [hn]
      | file c =>
        cases hio : w.ioError (getSeenPath cfg) <;> simp [hn, hio, FS.insert, hp]

theorem setSeen_trace (cfg : Config) (w : World) (m : GoMap) :
    (setSeen cfg w m).trace = w.trace ++ [Event.create (getSeenPath cfg)] ∨
    (setSeen cfg w m).trace =
      w.trace ++ [Event.create (getSeenPath cfg), Event.write (getSeenPath cfg)] := by
  unfold setSeen os.Create os.writeAll
  cases hw : os.walk w.fs (os.ancestors (getSeenPath cfg)) with
  | some e => simp
  | none =>
    cases hn : w.fs (getSeenPath cfg) with
    | none =>
      cases hio : w.ioError (getSeenPath cfg) <;> simp [hn, hio]
    | some n =>
      cases n with
      | dir => simp [hn]
      | file c =>
        cases hio : w.ioError (getSeenPath cfg) <;> simp [hn, hio]

theorem doSortLoop_quiet (cfg : Config) (seenFiles : GoMap) (files : List DirEntry)
    (w : World)
    (hall : ∀ f ∈ files, f.isCandidate = true → seenFiles.get f.name = true) :
    (doSortLoop cfg seenFiles files w).world = w ∧
    (doSortLoop cfg seenFiles files w).didProcess = false ∧
    (doSortLoop cfg seenFiles files w).calls = [] := by
  obtain ⟨h1, h2⟩ := foldl_doSortStep_quiet cfg seenFiles files hall
    { world := w, newSeenFiles := [], didProcess := false, calls := [] }
  refine ⟨h1, h2, ?_⟩
  rw [doSortLoop_calls, List.filterMap_eq_nil_iff]
  intro f hf
  unfold callOf
  by_cases hc : f.isCandidate = true
  · simp [hall f hf hc]
  · simp [hc]

/-- C6: when the directory can be listed, a pass returns; and a second pass
over the same listing, given the seen map the first pass produced, calls
`processFile` for no entry, reports `didProcess = false`, produces the same
seen map, changes no file other than the seen file, and performs only the
directory read, the writing of the seen file and the log line
"Sort complete (no changes)". -/
theorem C6_idempotence (cfg : Config) (seenFiles0 : GoMap) (files : List DirEntry)
    (w0 w1 : World) (h0 : w0.listing = some files) (h1 : w1.listing = some files) :
    ∃ st1 st2, doSortFrom cfg seenFiles0 w0 = some st1 ∧
      doSortFrom cfg st1.newSeenFiles w1 = some st2 ∧
      st2.calls = [] ∧ st2.didProcess = false ∧
      st2.newSeenFiles = st1.newSeenFiles ∧
      (∀ p, p ≠ getSeenPath cfg → st2.world.fs p = w1.fs p) ∧
      (st2.world.trace = w1.trace ++ [Event.readDir cfg.sourcePath,
          Event.create (getSeenPath cfg), Event.log LogLine.sortCompleteNoChanges] ∨
        st2.world.trace = w1.trace ++ [Event.readDir cfg.sourcePath,
          Event.create (getSeenPath cfg), Event.write (getSeenPath cfg),
          Event.log LogLine.sortCompleteNoChanges]) := by
  refine ⟨_, _, doSortFrom_eq cfg seenFiles0 w0 files h0, doSortFrom_eq cfg _ w1 files h1, ?_⟩
  have hall : ∀ f ∈ files, f.isCandidate = true →
      GoMap.get (doSortLoop cfg seenFiles0 files (os.ReadDir w0 cfg.sourcePath).2).newSeenFiles
        f.name = true := by
    intro f hf hc
    unfold GoMap.get
    simp only [decide_eq_true_eq]
    exact (doSortLoop_mem_newSeen cfg seenFiles0 files _ f.name).mpr ⟨f, hf, hc, rfl⟩
  obtain ⟨hw, hd, hcalls⟩ := doSortLoop_quiet cfg _ files (os.ReadDir w1 cfg.sourcePath).2 hall
  have hseen :
      (doSortLoop cfg
        (doSortLoop cfg seenFiles0 files (os.ReadDir w0 cfg.sourcePath).2).newSeenFiles files
        (os.ReadDir w1 cfg.sourcePath).2).newSeenFiles =
      (doSortLoop cfg seenFiles0 files (os.ReadDir w0 cfg.sourcePath).2).newSeenFiles := by
    unfold doSortLoop
    exact foldl_doSortStep_newSeen_indep cfg cfg _ _ files _ _ rfl
  refine ⟨hcalls, hd, hseen, ?_, ?_⟩
  · intro p hp
    simp only [logPrintln]
    rw [setSeen_fs cfg _ _ p hp, hw]
    rfl
  · simp only [logPrintln, hd]
    rcases setSeen_trace cfg
      (doSortLoop cfg
        (doSortLoop cfg seenFiles0 files (os.ReadDir w0 cfg.sourcePath).2).newSeenFiles files
        (os.ReadDir w1 cfg.sourcePath).2).world
      (doSortLoop cfg
        (doSortLoop cfg seenFiles0 files (os.ReadDir w0 cfg.sourcePath).2).newSeenFiles files
        (os.ReadDir w1 cfg.sourcePath).2).newSeenFiles with ht | ht
    · left
      rw [ht, hw]
      simp [os.ReadDir]
    · right
      rw [ht, hw]
      simp [os.ReadDir]

/-- C6 at the scenario of the specification: after a first pass from the
empty seen map over the sample listing, the second pass copies nothing. -/
theorem C6_idempotence_witness :
    (worldOf sampleFS sampleListing).listing = some sampleListing ∧
    ∃ st1 st2, doSortFrom sampleConfig [] (worldOf sampleFS sampleListing) = some st1 ∧
      doSortFrom sampleConfig st1.newSeenFiles (worldOf sampleFS sampleListing) = some st2 ∧
      st2.calls = [] ∧ st2.didProcess = false ∧
      st2.newSeenFiles = st1.newSeenFiles ∧
      (∀ p, p ≠ getSeenPath sampleConfig →
        st2.world.fs p = (worldOf sampleFS sampleListing).fs p) ∧
      (st2.world.trace = (worldOf sampleFS sampleListing).trace ++
          [Event.readDir sampleConfig.sourcePath,
          Event.create (getSeenPath sampleConfig),
          Event.log LogLine.sortCompleteNoChanges] ∨
        st2.world.trace = (worldOf sampleFS sampleListing).trace ++
          [Event.readDir sampleConfig.sourcePath,
          Event.create (getSeenPath sampleConfig), Event.write (getSeenPath sampleConfig),
          Event.log LogLine.sortCompleteNoChanges]) :=
  ⟨rfl, C6_idempotence sampleConfig [] sampleListing (worldOf sampleFS sampleListing)
    (worldOf sampleFS sampleListing) rfl rfl⟩

/-! ## The run loop -/

theorem sortWorkerStep_stale (s : Worker) (t now : Time)
    (h : t.instant ≤ s.lastRun.instant) :
    sortWorkerStep s (Received.changeTime t) now = s := by
  unfold sortWorkerStep Time.After
  have hn : ¬ s.lastRun.instant < t.instant := not_lt.mpr h
  by_cases he : s.exited = true
  · simp [he]
  · simp [he, hn]

theorem sortWorkerLoop_stale (s : Worker) :
    ∀ msgs : List (Time × Time), (∀ m ∈ msgs, m.1.instant ≤ s.lastRun.instant) →
      sortWorkerLoop s (msgs.map (fun m => (Received.changeTime m.1, m.2))) = s := by
  intro msgs
  induction msgs with
  | nil => intro _; rfl
  | cons m rest ih =>
    intro h
    unfold sortWorkerLoop at ih ⊢
    rw [List.map_cons, List.foldl_cons]
    simp only
    rw [sortWorkerStep_stale s m.1 m.2 (h m (List.mem_cons_self _ _))]
    exact ih (fun m2 hm2 => h m2 (List.mem_cons_of_mem _ hm2))

theorem sortWorkerStep_fresh (s : Worker) (t now : Time) (hs : s.exited = false)
    (h : s.lastRun.instant < t.instant) :
    sortWorkerStep s (Received.changeTime t) now =
      { s with lastRun := now, passes := s.passes + 1 } := by
  unfold sortWorkerStep Time.After
  simp [hs, h]

theorem sortWorkerLoop_collapse :
    ∀ (msgs : List (Time × Time)) (s : Worker),
      (∀ m ∈ msgs, ∀ m2 ∈ msgs, m.1.instant ≤ m2.2.instant) →
      (sortWorkerLoop s (msgs.map (fun m => (Received.changeTime m.1, m.2)))).passes ≤
        s.passes + 1 := by
  intro msgs
  induction msgs with
  | nil => intro s _; simp [sortWorkerLoop]
  | cons m rest ih =>
    intro s h
    have hrest : ∀ a ∈ rest, ∀ b ∈ rest, a.1.instant ≤ b.2.instant :=
      fun a ha b hb => h a (List.mem_cons_of_mem _ ha) b (List.mem_cons_of_mem _ hb)
    have hunfold : sortWorkerLoop s
        ((m :: rest).map (fun m => (Received.changeTime m.1, m.2))) =
        sortWorkerLoop (sortWorkerStep s (Received.changeTime m.1) m.2)
          (rest.map (fun m => (Received.changeTime m.1, m.2))) := by
      simp [sortWorkerLoop]
    rw [hunfold]
    by_cases hfresh : s.exited = false ∧ s.lastRun.instant < m.1.instant
    · rw [sortWorkerStep_fresh s m.1 m.2 hfresh.1 hfresh.2]
      rw [sortWorkerLoop_stale]
      intro a ha
      exact h a (List.mem_cons_of_mem _ ha) m (List.mem_cons_self _ _)
    · have hsame : sortWorkerStep s (Received.changeTime m.1) m.2 = s := by
        by_cases he : s.exited = false
        · exact sortWorkerStep_stale s m.1 m.2 (not_lt.mp (fun hlt => hfresh ⟨he, hlt⟩))
        · unfold sortWorkerStep
          simp at he
          simp [he]
      rw [hsame]
      exact ih s hrest

/-- C7: in the loop of `sortWorker` (a step function over `lastRun`, the
timestamp received and the clock reading of the round), any number of change
signals whose timestamps are not after `lastRun` start no pass and leave
`lastRun` as it is; a signal strictly after `lastRun` starts exactly one pass
and sets `lastRun` to the clock reading of the round, not to the signal's
time; and signals that were all queued before the first of them is received
(no timestamp is after any of the clock readings) start at most one pass. -/
theorem C7_debounce_collapse (s : Worker) (hs : s.exited = false) :
    (∀ msgs : List (Time × Time), (∀ m ∈ msgs, m.1.instant ≤ s.lastRun.instant) →
      sortWorkerLoop s (msgs.map (fun m => (Received.changeTime m.1, m.2))) = s) ∧
    (∀ t now : Time, s.lastRun.instant < t.instant →
      sortWorkerStep s (Received.changeTime t) now =
        { lastRun := now, passes := s.passes + 1, exited := false }) ∧
    (∀ msgs : List (Time × Time),
      (∀ m ∈ msgs, ∀ m2 ∈ msgs, m.1.instant ≤ m2.2.instant) →
      (sortWorkerLoop s (msgs.map (fun m => (Received.changeTime m.1, m.2)))).passes ≤
        s.passes + 1) := by
  refine ⟨sortWorkerLoop_stale s, ?_, fun msgs h => sortWorkerLoop_collapse msgs s h⟩
  intro t now h
  rw [sortWorkerStep_fresh s t now hs h, ← hs]

/-- C7 for a worker whose initial pass started at clock reading 10: three
signals stamped 11, 12 and 13, received at readings 20, 30 and 31, start one
pass, and `lastRun` becomes 20. -/
theorem C7_debounce_collapse_witness :
    (sortWorkerInit (clock 10)).exited = false ∧
    sortWorkerLoop (sortWorkerInit (clock 10))
      [(Received.changeTime (clock 11), clock 20), (Received.changeTime (clock 12), clock 30),
        (Received.changeTime (clock 13), clock 31)] =
      { lastRun := clock 20, passes := 2, exited := false } ∧
    (sortWorkerLoop (sortWorkerInit (clock 10))
      ([(clock 11, clock 20), (clock 12, clock 30), (clock 13, clock 31)].map
        (fun m => (Received.changeTime m.1, m.2)))).passes ≤ (sortWorkerInit (clock 10)).passes + 1 :=
  ⟨rfl, by decide,
    (C7_debounce_collapse (sortWorkerInit (clock 10)) rfl).2.2
      [(clock 11, clock 20), (clock 12, clock 30), (clock 13, clock 31)] (by decide)⟩

/-! ## The watcher -/

theorem watcherStep_of_room (s : Watch) (op : Op) (now : Time) (hidle : s.sending = none)
    (h : s.buf.length < changeTimesCap) :
    watcherStep s op now = { buf := s.buf ++ [now], sending := none } := by
  unfold watcherStep
  simp [hidle, h]

theorem watcherStep_of_full (s : Watch) (op : Op) (now : Time) (hidle : s.sending = none)
    (h : changeTimesCap ≤ s.buf.length) :
    watcherStep s op now = { buf := s.buf, sending := some now } := by
  unfold watcherStep
  simp [hidle, not_lt.mpr h]

theorem receive_of_sending (t v : Time) (rest : List Time) :
    receive { buf := t :: rest, sending := some v } =
      some (t, { buf := rest ++ [v], sending := none }) := rfl

theorem fullWatch_length : fullWatch.buf.length = changeTimesCap := by
  simp [fullWatch]

/-- C9, as the claim states it, fails: on a full queue the emission is not
dropped. The watcher does not return to its `range` (it is left blocked in
the send, holding the timestamp), and as soon as the run loop receives one
timestamp the held one is appended to the queue. -/
theorem C9_counterexample :
    fullWatch.sending = none ∧ fullWatch.buf.length = changeTimesCap ∧
    watcherStep fullWatch Op.write (clock 2) ≠ fullWatch ∧
    watcherStep fullWatch Op.write (clock 2) =
      { buf := fullWatch.buf, sending := some (clock 2) } ∧
    receive (watcherStep fullWatch Op.write (clock 2)) =
      some (clock 1, { buf := List.replicate 1023 (clock 1) ++ [clock 2], sending := none }) := by
  have hstep := watcherStep_of_full fullWatch Op.write (clock 2) rfl (le_of_eq fullWatch_length.symm)
  refine ⟨rfl, fullWatch_length, ?_, hstep, ?_⟩
  · rw [hstep]
    intro h
    have h2 := congrArg Watch.sending h
    exact absurd h2 (by simp [fullWatch])
  · rw [hstep]
    exact receive_of_sending (clock 1) (clock 2) (List.replicate 1023 (clock 1))

/-- C9, amended: for a watcher at its `range`, a notification of any kind
appends exactly one timestamp, the current time, when the queue is not full;
when the queue is full the send blocks: the queue is unchanged, the watcher
holds the timestamp and takes no further notification, and the next receive
of the run loop appends the held timestamp behind the others. -/
theorem C9_full_queue_blocks (s : Watch) (op : Op) (now : Time) (hidle : s.sending = none) :
    (s.buf.length < changeTimesCap →
      watcherStep s op now = { buf := s.buf ++ [now], sending := none }) ∧
    (changeTimesCap ≤ s.buf.length →
      watcherStep s op now = { buf := s.buf, sending := some now } ∧
      (∀ (op2 : Op) (now2 : Time),
        watcherStep (watcherStep s op now) op2 now2 = watcherStep s op now) ∧
      (∀ t rest, s.buf = t :: rest →
        receive (watcherStep s op now) = some (t, { buf := rest ++ [now], sending := none }))) := by
  refine ⟨watcherStep_of_room s op now hidle, ?_⟩
  intro h
  have hstep := watcherStep_of_full s op now hidle h
  refine ⟨hstep, ?_, ?_⟩
  · intro op2 now2
    rw [hstep]
    rfl
  · intro t rest hbuf
    rw [hstep, hbuf]
    exact receive_of_sending t now rest

/-- C9, amended, on the full queue. -/
theorem C9_full_queue_blocks_witness :
    fullWatch.sending = none ∧ changeTimesCap ≤ fullWatch.buf.length ∧
    watcherStep fullWatch Op.create (clock 2) =
      { buf := fullWatch.buf, sending := some (clock 2) } :=
  ⟨rfl, le_of_eq fullWatch_length.symm,
    ((C9_full_queue_blocks fullWatch Op.create (clock 2) rfl).2
      (le_of_eq fullWatch_length.symm)).1⟩

/-! ## Runs of several passes -/

theorem countP_filterMap_callOf_le_one (seenFiles : GoMap) (name : GoString) :
    ∀ files : List DirEntry, (files.map DirEntry.name).Nodup →
      List.countP (fun c => decide (c.1 = name)) (files.filterMap (callOf seenFiles)) ≤ 1 := by
  intro files
  induction files with
  | nil => intro _; simp
  | cons f rest ih =>
    intro hnodup
    rw [List.map_cons, List.nodup_cons] at hnodup
    have ihr := ih hnodup.2
    cases hc : callOf seenFiles f with
    | none =>
      rw [List.filterMap_cons_none hc]
      exact ihr
    | some call =>
      rw [List.filterMap_cons_some hc, List.countP_cons]
      obtain ⟨_, _, hn, _⟩ := callOf_eq_some seenFiles f call hc
      by_cases hname : call.1 = name
      · have hzero : List.countP (fun c => decide (c.1 = name))
            (rest.filterMap (callOf seenFiles)) = 0 := by
          rw [List.countP_eq_zero]
          intro c hcmem hcname
          simp only [decide_eq_true_eq] at hcname
          obtain ⟨g, hg, hgc⟩ := List.mem_filterMap.mp hcmem
          obtain ⟨_, _, hgn, _⟩ := callOf_eq_some seenFiles g c hgc
          apply hnodup.1
          rw [hn, hname, ← hcname, ← hgn]
          exact List.mem_map_of_mem _ hg
        rw [hzero]
        simp [hname]
      · simp only [hname, decide_False, Bool.false_eq_true, if_false, add_zero]
        exact ihr

theorem count_calls_le_one (cfg : Config) (seenFiles : GoMap) (files : List DirEntry)
    (w : World) (name : GoString) (hnodup : (files.map DirEntry.name).Nodup) :
    List.countP (fun c => decide (c.1 = name)) (doSortLoop cfg seenFiles files w).calls ≤ 1 := by
  rw [doSortLoop_calls]
  exact countP_filterMap_callOf_le_one seenFiles name files hnodup

theorem count_calls_of_seen (cfg : Config) (seenFiles : GoMap) (files : List DirEntry)
    (w : World) (name : GoString) (h : name ∈ seenFiles) :
    List.countP (fun c => decide (c.1 = name)) (doSortLoop cfg seenFiles files w).calls = 0 := by
  rw [List.countP_eq_zero]
  intro call hcall hname
  simp only [decide_eq_true_eq] at hname
  rw [doSortLoop_calls, List.mem_filterMap] at hcall
  obtain ⟨f, _, hfc⟩ := hcall
  obtain ⟨_, hs, hn, _⟩ := callOf_eq_some seenFiles f call hfc
  unfold GoMap.get at hs
  rw [hn, hname] at hs
  simp [h] at hs

theorem count_calls_of_not_listed (cfg : Config) (seenFiles : GoMap) (files : List DirEntry)
    (w : World) (name : GoString) (h : ¬ listsCandidate name files) :
    List.countP (fun c => decide (c.1 = name)) (doSortLoop cfg seenFiles files w).calls = 0 := by
  rw [List.countP_eq_zero]
  intro call hcall hname
  simp only [decide_eq_true_eq] at hname
  rw [doSortLoop_calls, List.mem_filterMap] at hcall
  obtain ⟨f, hf, hfc⟩ := hcall
  obtain ⟨hc, _, hn, _⟩ := callOf_eq_some seenFiles f call hfc
  exact h ⟨f, hf, hc, hn.trans hname⟩

theorem passCalls_count (cfg : Config) (name : GoString) :
    ∀ (passes : List (List DirEntry × World)) (seenFiles : GoMap),
      (∀ p ∈ passes, (p.1.map DirEntry.name).Nodup) →
      List.Chain' (fun p q => listsCandidate name p.1 → listsCandidate name q.1) passes →
      List.countP (fun c => decide (c.1 = name)) (passCalls cfg seenFiles passes) ≤ 1 ∧
      (name ∈ seenFiles →
        (∀ p rest, passes = p :: rest → listsCandidate name p.1) →
        List.countP (fun c => decide (c.1 = name)) (passCalls cfg seenFiles passes) = 0) := by
  intro passes
  induction passes with
  | nil => intro seenFiles _ _; simp [passCalls]
  | cons p rest ih =>
    intro seenFiles hnodup hchain
    obtain ⟨files, w⟩ := p
    have hsplit : List.countP (fun c => decide (c.1 = name))
          (passCalls cfg seenFiles ((files, w) :: rest)) =
        List.countP (fun c => decide (c.1 = name)) (doSortLoop cfg seenFiles files w).calls +
        List.countP (fun c => decide (c.1 = name))
          (passCalls cfg (doSortLoop cfg seenFiles files w).newSeenFiles rest) := by
      simp [passCalls, List.countP_append]
    obtain ⟨ihle, ihzero⟩ := ih (doSortLoop cfg seenFiles files w).newSeenFiles
      (fun q hq => hnodup q (List.mem_cons_of_mem _ hq)) hchain.tail
    have hthis := count_calls_le_one cfg seenFiles files w name
      (hnodup (files, w) (List.mem_cons_self _ _))
    by_cases hc : listsCandidate name files
    · have hmem : name ∈ (doSortLoop cfg seenFiles files w).newSeenFiles :=
        (doSortLoop_mem_newSeen cfg seenFiles files w name).mpr hc
      have hrest := ihzero hmem (by
        intro q rest2 hq
        subst hq
        exact (List.chain'_cons.mp hchain).1 hc)
      constructor
      · omega
      · intro hseen _
        have := count_calls_of_seen cfg seenFiles files w name hseen
        omega
    · have h0 := count_calls_of_not_listed cfg seenFiles files w name hc
      constructor
      · omega
      · intro _ hhead
        exact absurd (hhead (files, w) rest rfl) hc

/-- C8, as the claim states it, fails: when `a.jpg` leaves the source
directory its name leaves the seen map at the next pass, and when a file of
that name comes back (here with another content and year) it is copied a
second time: over the three passes `processFile` is called twice for
`a.jpg`, and both copies are in the target directory at the end. -/
theorem C8_counterexample :
    passCalls sampleConfig [] [(listing2023, world1), ([], world2), (listing2024, world3)] =
      [("a.jpg".toList, time2023), ("a.jpg".toList, time2024)] ∧
    sampleFS "tgt/2023/a.jpg".toList = none ∧ sampleFS "tgt/2024/a.jpg".toList = none ∧
    (doSortLoop sampleConfig seen3 listing2024 world3).world.fs "tgt/2023/a.jpg".toList =
      some (Node.file "JPEG".toList) ∧
    (doSortLoop sampleConfig seen3 listing2024 world3).world.fs "tgt/2024/a.jpg".toList =
      some (Node.file "JPEG2".toList) := by
  refine ⟨by decide, by decide, by decide, by decide, by decide⟩

/-- C8, amended: over every sequence of passes, each reading the seen map
the pass before it produced, with arbitrary worlds (source and target
directories) from pass to pass and listings of distinct names, `processFile`
is called at most once for a name (so a file of that name is copied at most
once), whatever its content and modification time, provided the name, once
it is a candidate of a listing, is a candidate of every later listing. -/
theorem C8_copied_at_most_once (cfg : Config) (name : GoString) (seenFiles : GoMap)
    (passes : List (List DirEntry × World))
    (hnodup : ∀ p ∈ passes, (p.1.map DirEntry.name).Nodup)
    (hstay : List.Chain' (fun p q => listsCandidate name p.1 → listsCandidate name q.1) passes) :
    List.countP (fun c => decide (c.1 = name)) (passCalls cfg seenFiles passes) ≤ 1 :=
  (passCalls_count cfg name passes seenFiles hnodup hstay).1

/-- C8, amended, on two passes over the sample listing. -/
theorem C8_copied_at_most_once_witness :
    List.countP (fun c => decide (c.1 = "a.jpg".toList))
      (passCalls sampleConfig []
        [(sampleListing, worldOf sampleFS sampleListing),
          (sampleListing, worldOf sampleFS sampleListing)]) ≤ 1 :=
  C8_copied_at_most_once sampleConfig "a.jpg".toList []
    [(sampleListing, worldOf sampleFS sampleListing),
      (sampleListing, worldOf sampleFS sampleListing)]
    (by
      intro p hp
      simp only [List.mem_cons, List.mem_singleton, List.not_mem_nil, or_false, or_self] at hp
      subst hp
      decide)
    (List.chain'_pair.mpr (fun h => h))

/-! ## `processFile` -/

theorem processFile_of_stat_ok (cfg : Config) (w : World) (name : GoString) (modified : Time)
    (n : Node) (h : os.lookup w.fs (targetFile cfg name modified) = Except.ok n) :
    processFile cfg w name modified =
      { w with trace := w.trace ++ [Event.stat (targetFile cfg name modified),
          Event.log (LogLine.skippingExists (sourceFile cfg name)
            (targetFile cfg name modified))] } := by
  unfold targetFile at h
  unfold processFile os.Stat
  simp [h, logPrintln, targetFile, sourceFile]

theorem processFile_of_stat_other (cfg : Config) (w : World) (name : GoString)
    (modified : Time) (e : Errno)
    (h : os.lookup w.fs (targetFile cfg name modified) = Except.error e)
    (he : e ≠ Errno.ENOENT) :
    processFile cfg w name modified =
      { w with trace := w.trace ++ [Event.stat (targetFile cfg name modified),
          Event.log (LogLine.skippingExists (sourceFile cfg name)
            (targetFile cfg name modified))] } := by
  unfold targetFile at h
  unfold processFile os.Stat
  simp [h, logPrintln, targetFile, sourceFile, os.isNotExist, he]

theorem os.Create_trace (w : World) (p : GoString) :
    (os.Create w p).2.trace = w.trace ++ [Event.create p] := by
  unfold os.Create
  cases os.walk w.fs (os.ancestors p) with
  | some e => rfl
  | none =>
    cases hn : w.fs p with
    | none => rfl
    | some n => cases n <;> rfl

theorem os.ReadFrom_trace (w : World) (p : GoString) (src : Node) :
    (os.ReadFrom w p src).2.trace = w.trace ++ [Event.readFrom p] := by
  unfold os.ReadFrom os.writeAll
  cases src with
  | dir => rfl
  | file content => cases hio : w.ioError p <;> simp [hio]

theorem os.Remove_trace (w : World) (p : GoString) :
    (os.Remove w p).trace = w.trace ++ [Event.remove p] := by
  unfold os.Remove
  cases os.lookup w.fs p with
  | error e => rfl
  | ok n => cases n <;> rfl

theorem processFile_of_stat_notExist (cfg : Config) (w : World) (name : GoString)
    (modified : Time)
    (h : os.lookup w.fs (targetFile cfg name modified) = Except.error Errno.ENOENT) :
    ∃ more, (processFile cfg w name modified).trace =
      w.trace ++ [Event.stat (targetFile cfg name modified),
        Event.log (LogLine.copying (sourceFile cfg name) (targetFile cfg name modified)),
        Event.opened (sourceFile cfg name)] ++ more := by
  have hstat : os.Stat w (targetFile cfg name modified) =
      (some Errno.ENOENT,
        { w with trace := w.trace ++ [Event.stat (targetFile cfg name modified)] }) := by
    unfold os.Stat
    simp [h]
  have hproc : processFile cfg w name modified =
      match os.Open { w with trace := w.trace ++ [Event.stat (targetFile cfg name modified),
          Event.log (LogLine.copying (sourceFile cfg name) (targetFile cfg name modified))] }
          (sourceFile cfg name) with
      | (Except.error _, w3) => w3
      | (Except.ok r, w3) =>
        match os.Create (os.MkdirAll w3
            (path.Join [cfg.targetPath, strconv.Itoa modified.Year]))
            (targetFile cfg name modified) with
        | (false, w5) => w5
        | (true, w5) =>
          match os.ReadFrom w5 (targetFile cfg name modified) r with
          | (true, w6) => w6
          | (false, w6) => os.Remove w6 (targetFile cfg name modified) := by
    unfold processFile
    unfold targetFile at hstat
    simp only [hstat, os.isNotExist, decide_True, if_true, logPrintln, targetFile, sourceFile,
      List.append_assoc, List.singleton_append]
  rw [hproc]
  unfold os.Open
  simp only
  cases hsrc : os.lookup w.fs (sourceFile cfg name) with
  | error e => exact ⟨[], by simp⟩
  | ok r =>
    simp only
    have hc := os.Create_trace
      (os.MkdirAll { w with trace := w.trace ++ [Event.stat (targetFile cfg name modified),
          Event.log (LogLine.copying (sourceFile cfg name) (targetFile cfg name modified))] ++
          [Event.opened (sourceFile cfg name)] }
        (path.Join [cfg.targetPath, strconv.Itoa modified.Year]))
      (targetFile cfg name modified)
    rcases hcreate : os.Create
      (os.MkdirAll { w with trace := w.trace ++ [Event.stat (targetFile cfg name modified),
          Event.log (LogLine.copying (sourceFile cfg name) (targetFile cfg name modified))] ++
          [Event.opened (sourceFile cfg name)] }
        (path.Join [cfg.targetPath, strconv.Itoa modified.Year]))
      (targetFile cfg name modified) with ⟨ok, w5⟩
    rw [hcreate] at hc
    simp only [os.MkdirAll] at hc
    cases ok with
    | false =>
      simp only
      exact ⟨[Event.mkdirAll (path.Join [cfg.targetPath, strconv.Itoa modified.Year]),
        Event.create (targetFile cfg name modified)], by rw [hc]; simp⟩
    | true =>
      simp only
      have hr := os.ReadFrom_trace w5 (targetFile cfg name modified) r
      rcases hread : os.ReadFrom w5 (targetFile cfg name modified) r with ⟨ok2, w6⟩
      rw [hread] at hr
      cases ok2 with
      | true =>
        simp only
        exact ⟨[Event.mkdirAll (path.Join [cfg.targetPath, strconv.Itoa modified.Year]),
          Event.create (targetFile cfg name modified),
          Event.readFrom (targetFile cfg name modified)], by
          rw [show w6.trace = w5.trace ++ [Event.readFrom (targetFile cfg name modified)] from hr,
            show w5.trace = _ from hc]
          simp⟩
      | false =>
        simp only
        exact ⟨[Event.mkdirAll (path.Join [cfg.targetPath, strconv.Itoa modified.Year]),
          Event.create (targetFile cfg name modified),
          Event.readFrom (targetFile cfg name modified),
          Event.remove (targetFile cfg name modified)], by
          rw [os.Remove_trace,
            show w6.trace = w5.trace ++ [Event.readFrom (targetFile cfg name modified)] from hr,
            show w5.trace = _ from hc]
          simp⟩

theorem os.Stat_fst (w : World) (p : GoString) :
    (os.Stat w p).1 = match os.lookup w.fs p with
      | Except.ok _ => none
      | Except.error e => some e := by
  unfold os.Stat
  cases os.lookup w.fs p <;> rfl

/-- C4, as the claim states it, fails: with a regular file at `tgt/2023`
nothing exists at the destination `tgt/2023/a.jpg`, yet no copy is started:
`processFile` only calls `os.Stat` and logs that it skips the file. -/
theorem C4_counterexample :
    targetFile sampleConfig "a.jpg".toList time2023 = "tgt/2023/a.jpg".toList ∧
    blockedFS "tgt/2023/a.jpg".toList = none ∧
    ¬ os.Exists blockedFS "tgt/2023/a.jpg".toList ∧
    (processFile sampleConfig (worldOf blockedFS listing2023) "a.jpg".toList time2023).trace =
      [Event.stat "tgt/2023/a.jpg".toList,
        Event.log (LogLine.skippingExists "src/a.jpg".toList "tgt/2023/a.jpg".toList)] := by
  refine ⟨by decide, by decide, ?_, by decide⟩
  rintro ⟨n, hn⟩
  have hl : os.lookup blockedFS "tgt/2023/a.jpg".toList = Except.error Errno.ENOTDIR := by
    rfl
  rw [hl] at hn
  cases hn

/-- C4, amended: if something exists at the destination of a file,
`processFile` only calls `os.Stat` and logs the skip: it opens no source,
creates no directory and no file, leaves the file system as it is and
returns. It starts a copy (opens the source) if and only if `os.Stat`
reports that the destination does not exist; on any other outcome of
`os.Stat`, an error other than "does not exist" included, it skips the
file in the same way. -/
theorem C4_destination_exists_skip (cfg : Config) (w : World) (name : GoString)
    (modified : Time) :
    (os.Exists w.fs (targetFile cfg name modified) →
      processFile cfg w name modified =
        { w with trace := w.trace ++ [Event.stat (targetFile cfg name modified),
            Event.log (LogLine.skippingExists (sourceFile cfg name)
              (targetFile cfg name modified))] }) ∧
    (Event.opened (sourceFile cfg name) ∈
        (processFile cfg w name modified).trace.drop w.trace.length ↔
      (os.Stat w (targetFile cfg name modified)).1 = some Errno.ENOENT) ∧
    ((os.Stat w (targetFile cfg name modified)).1 ≠ some Errno.ENOENT →
      processFile cfg w name modified =
        { w with trace := w.trace ++ [Event.stat (targetFile cfg name modified),
            Event.log (LogLine.skippingExists (sourceFile cfg name)
              (targetFile cfg name modified))] }) := by
  refine ⟨?_, ?_, ?_⟩
  · rintro ⟨n, hn⟩
    exact processFile_of_stat_ok cfg w name modified n hn
  · rw [os.Stat_fst]
    cases hl : os.lookup w.fs (targetFile cfg name modified) with
    | ok n =>
      rw [processFile_of_stat_ok cfg w name modified n hl]
      simp
    | error e =>
      by_cases he : e = Errno.ENOENT
      · subst he
        obtain ⟨more, hmore⟩ := processFile_of_stat_notExist cfg w name modified hl
        rw [hmore]
        simp
      · rw [processFile_of_stat_other cfg w name modified e hl he]
        simp [he]
  · rw [os.Stat_fst]
    cases hl : os.lookup w.fs (targetFile cfg name modified) with
    | ok n =>
      intro _
      exact processFile_of_stat_ok cfg w name modified n hl
    | error e =>
      intro he
      exact processFile_of_stat_other cfg w name modified e hl (fun h => he (by rw [h]))

/-- C4, amended, on a target tree that holds `tgt/2023/a.jpg` already: the
file is skipped and keeps its content. -/
theorem C4_destination_exists_skip_witness :
    os.Exists copiedFS (targetFile sampleConfig "a.jpg".toList time2023) ∧
    (processFile sampleConfig (worldOf copiedFS listing2023) "a.jpg".toList time2023).fs
      "tgt/2023/a.jpg".toList = some (Node.file "OLD".toList) ∧
    processFile sampleConfig (worldOf copiedFS listing2023) "a.jpg".toList time2023 =
      { worldOf copiedFS listing2023 with
        trace := (worldOf copiedFS listing2023).trace ++
          [Event.stat (targetFile sampleConfig "a.jpg".toList time2023),
            Event.log (LogLine.skippingExists (sourceFile sampleConfig "a.jpg".toList)
              (targetFile sampleConfig "a.jpg".toList time2023))] } :=
  ⟨⟨Node.file "OLD".toList, by rfl⟩, by decide,
    (C4_destination_exists_skip sampleConfig (worldOf copiedFS listing2023) "a.jpg".toList
      time2023).1 ⟨Node.file "OLD".toList, by rfl⟩⟩

/-! ## The seen file -/

theorem takeWhile_append_stop (p : Char → Bool) (c : Char) (rest : GoString) (hc : p c = false) :
    ∀ k : GoString, (∀ x ∈ k, p x = true) → (k ++ c :: rest).takeWhile p = k := by
  intro k
  induction k with
  | nil => intro _; simp [List.takeWhile_cons, hc]
  | cons a k ih =>
    intro hk
    rw [List.cons_append, List.takeWhile_cons, hk a (List.mem_cons_self _ _)]
    simp only [if_true]
    rw [ih (fun x hx => hk x (List.mem_cons_of_mem _ hx))]

theorem dropWhile_append_stop (p : Char → Bool) (c : Char) (rest : GoString) (hc : p c = false) :
    ∀ k : GoString, (∀ x ∈ k, p x = true) → (k ++ c :: rest).dropWhile p = c :: rest := by
  intro k
  induction k with
  | nil => intro _; simp [List.dropWhile_cons, hc]
  | cons a k ih =>
    intro hk
    rw [List.cons_append, List.dropWhile_cons, hk a (List.mem_cons_self _ _)]
    simp only [if_true]
    rw [ih (fun x hx => hk x (List.mem_cons_of_mem _ hx))]

theorem takeWhile_line (k rest : GoString) (h : '\n' ∉ k) :
    (k ++ '\n' :: rest).takeWhile (fun c => c ≠ '\n') = k :=
  takeWhile_append_stop (fun c => decide (c ≠ '\n')) '\n' rest (by decide) k
    (fun x hx => decide_eq_true (fun hxn => h (hxn ▸ hx)))

theorem dropWhile_line (k rest : GoString) (h : '\n' ∉ k) :
    (k ++ '\n' :: rest).dropWhile (fun c => c ≠ '\n') = '\n' :: rest :=
  dropWhile_append_stop (fun c => decide (c ≠ '\n')) '\n' rest (by decide) k
    (fun x hx => decide_eq_true (fun hxn => h (hxn ▸ hx)))

theorem scanLines_seenText :
    ∀ (keys : List GoString) (fuel : Nat), keys.length ≤ fuel →
      (∀ k ∈ keys, '\n' ∉ k ∧ k.getLast? ≠ some '\r' ∧ byteLen k < bufio.MaxScanTokenSize) →
      bufio.scanLines fuel (seenText keys) = keys := by
  intro keys
  induction keys with
  | nil =>
    intro fuel _ _
    cases fuel <;> simp [bufio.scanLines, seenText]
  | cons k rest ih =>
    intro fuel hfuel hkeys
    obtain ⟨hnl, hcr, hlen⟩ := hkeys k (List.mem_cons_self _ _)
    cases fuel with
    | zero => simp at hfuel
    | succ fuel =>
      have hne : k ++ '\n' :: seenText rest ≠ [] := by simp
      have hdrop : bufio.dropCR k = k := by
        unfold bufio.dropCR
        simp [hcr]
      unfold bufio.scanLines
      simp only [seenText, hne, if_false, takeWhile_line k _ hnl, dropWhile_line k _ hnl,
        not_le.mpr hlen, hdrop]
      rw [ih fuel (by simpa using hfuel)
        (fun k2 hk2 => hkeys k2 (List.mem_cons_of_mem _ hk2))]

theorem seenText_length (keys : List GoString) : keys.length ≤ (seenText keys).length := by
  induction keys with
  | nil => simp [seenText]
  | cons k rest ih =>
    simp only [seenText, List.length_cons, List.length_append]
    omega

theorem mem_foldl_set (x : GoString) :
    ∀ (l : List GoString) (m : GoMap), x ∈ l.foldl GoMap.set m ↔ x ∈ m ∨ x ∈ l := by
  intro l
  induction l with
  | nil => intro m; simp
  | cons k rest ih =>
    intro m
    rw [List.foldl_cons, ih, GoMap.mem_set, List.mem_cons]
    tauto

/-- The round trip of the seen file for the names it can hold: keys in any
order, none containing a newline, none ending in a carriage return, each
shorter than the scanner's buffer, are read back as the same set. -/
theorem parseSeen_seenText (keys : List GoString)
    (hkeys : ∀ k ∈ keys,
      '\n' ∉ k ∧ k.getLast? ≠ some '\r' ∧ byteLen k < bufio.MaxScanTokenSize)
    (x : GoString) : x ∈ parseSeen (seenText keys) ↔ x ∈ keys := by
  unfold parseSeen bufio.scanAll
  rw [scanLines_seenText keys _ (Nat.le_succ_of_le (seenText_length keys)) hkeys,
    mem_foldl_set]
  simp

/-- When the seen file cannot be opened, `getSeen` returns the empty map. -/
theorem getSeen_of_open_error (cfg : Config) (w : World) (e : Errno)
    (h : os.lookup w.fs (getSeenPath cfg) = Except.error e) : (getSeen cfg w).1 = [] := by
  unfold getSeen os.Open
  simp [h]

/-- C10, at the failing input: the name `a\r` (no newline in it) is written
by `setSeen` as the line `a\r\n`, and the line scanner of `getSeen` reads the
name `a` back: the set read differs from the set written. As a result a
second `doSort` over an unchanged directory that holds `a\r` calls
`processFile` for it again, while for `a.jpg` it makes no call. -/
theorem C10_carriage_return_lost :
    '\n' ∉ "a\r".toList ∧
    seenText ["a\r".toList] = "a\r\n".toList ∧
    parseSeen (seenText ["a\r".toList]) = ["a".toList] ∧
    "a\r".toList ∉ parseSeen (seenText ["a\r".toList]) ∧
    (getSeen sampleConfig
      (setSeen sampleConfig (worldOf sampleFS []) ["a\r".toList])).1 = ["a".toList] ∧
    ((doSort sampleConfig (worldOf crFS crListing)).bind
      (fun st1 => doSort sampleConfig st1.world)).map (fun st2 => st2.calls) =
        some [("a\r".toList, time2023)] ∧
    ((doSort sampleConfig (worldOf sampleFS listing2023)).bind
      (fun st1 => doSort sampleConfig st1.world)).map (fun st2 => st2.calls) = some [] := by
  refine ⟨by decide, by decide, by decide, by decide, by decide, by decide, by decide⟩

/-! ## `path.Clean` and `path.Join` -/

theorem path.cleanLoop_nil (rooted : Bool) (fuel : Nat) (out : GoString) (dotdot : Nat) :
    path.cleanLoop rooted fuel [] out dotdot = (out, dotdot) := by
  cases fuel <;> rfl

theorem length_dropWhile_le (p : Char → Bool) (r : GoString) :
    (r.dropWhile p).length ≤ r.length := by
  induction r with
  | nil => simp
  | cons a r ih =>
    rw [List.dropWhile_cons]
    split
    · exact Nat.le_succ_of_le ih
    · exact Nat.le_refl _

theorem path.cleanLoop_fuel (rooted : Bool) :
    ∀ (fuel : Nat) (rest : GoString), rest.length ≤ fuel →
      ∀ (fuel2 : Nat), rest.length ≤ fuel2 → ∀ (out : GoString) (dotdot : Nat),
        path.cleanLoop rooted fuel rest out dotdot =
          path.cleanLoop rooted fuel2 rest out dotdot := by
  intro fuel
  induction fuel with
  | zero =>
    intro rest h fuel2 _ out dotdot
    have hnil : rest = [] := List.length_eq_zero.mp (Nat.le_zero.mp h)
    subst hnil
    rw [path.cleanLoop_nil, path.cleanLoop_nil]
  | succ fuel ih =>
    intro rest h fuel2 h2 out dotdot
    cases rest with
    | nil => rw [path.cleanLoop_nil, path.cleanLoop_nil]
    | cons c r =>
      cases fuel2 with
      | zero => simp at h2
      | succ fuel2 =>
        have hr : r.length ≤ fuel := by simpa using h
        have hr2 : r.length ≤ fuel2 := by simpa using h2
        have ht : r.tail.length ≤ fuel := by
          rw [List.length_tail]; omega
        have ht2 : r.tail.length ≤ fuel2 := by
          rw [List.length_tail]; omega
        have hd : (r.dropWhile (fun x => decide (x ≠ '/'))).length ≤ fuel :=
          le_trans (length_dropWhile_le _ r) hr
        have hd2 : (r.dropWhile (fun x => decide (x ≠ '/'))).length ≤ fuel2 :=
          le_trans (length_dropWhile_le _ r) hr2
        have e1 : path.cleanLoop rooted fuel r = path.cleanLoop rooted fuel2 r := by
          funext o d; exact ih r hr fuel2 hr2 o d
        have e2 : path.cleanLoop rooted fuel r.tail = path.cleanLoop rooted fuel2 r.tail := by
          funext o d; exact ih r.tail ht fuel2 ht2 o d
        have e3 : path.cleanLoop rooted fuel (r.dropWhile (fun x => decide (x ≠ '/'))) =
            path.cleanLoop rooted fuel2 (r.dropWhile (fun x => decide (x ≠ '/'))) := by
          funext o d; exact ih _ hd fuel2 hd2 o d
        simp only [path.cleanLoop]
        rw [e1, e2, e3]

theorem takeWhile_append_of_stop (p : Char → Bool) (c : Char) (s : GoString) (hc : p c = false) :
    ∀ r : GoString, (r ++ c :: s).takeWhile p = r.takeWhile p := by
  intro r
  induction r with
  | nil => simp [List.takeWhile_cons, hc]
  | cons a r ih =>
    rw [List.cons_append, List.takeWhile_cons, List.takeWhile_cons, ih]

theorem dropWhile_append_of_stop (p : Char → Bool) (c : Char) (s : GoString) (hc : p c = false) :
    ∀ r : GoString, (r ++ c :: s).dropWhile p = r.dropWhile p ++ c :: s := by
  intro r
  induction r with
  | nil => simp [List.dropWhile_cons, hc]
  | cons a r ih =>
    rw [List.cons_append, List.dropWhile_cons, List.dropWhile_cons, ih]
    split <;> simp

theorem path.cleanLoop_append (rooted : Bool) (s : GoString) (K : GoString × Nat → GoString × Nat)
    (hK : ∀ (o : GoString) (d fuel : Nat), s.length + 1 ≤ fuel →
      path.cleanLoop rooted fuel ('/' :: s) o d = K (o, d)) :
    ∀ (n : Nat) (t : GoString), t.length ≤ n → ∀ (out : GoString) (dd : Nat) (fuel : Nat),
      (t ++ '/' :: s).length ≤ fuel →
      path.cleanLoop rooted fuel (t ++ '/' :: s) out dd =
        K (path.cleanLoop rooted t.length t out dd) := by
  intro n
  induction n with
  | zero =>
    intro t ht out dd fuel hfuel
    have hnil : t = [] := List.length_eq_zero.mp (Nat.le_zero.mp ht)
    subst hnil
    rw [path.cleanLoop_nil]
    exact hK out dd fuel (by simpa using hfuel)
  | succ n ih =>
    intro t ht out dd fuel hfuel
    cases t with
    | nil =>
      rw [path.cleanLoop_nil]
      exact hK out dd fuel (by simpa using hfuel)
    | cons c r =>
      have hr : r.length ≤ n := by simpa using ht
      cases fuel with
      | zero => simp at hfuel
      | succ fuel =>
        have hfuel2 : (r ++ '/' :: s).length ≤ fuel := by
          simp only [List.cons_append, List.length_cons] at hfuel
          omega
        have ihr : ∀ (t2 : GoString), t2.length ≤ r.length → ∀ (o : GoString) (d : Nat),
            path.cleanLoop rooted fuel (t2 ++ '/' :: s) o d =
              K (path.cleanLoop rooted r.length t2 o d) := by
          intro t2 ht2 o d
          rw [ih t2 (le_trans ht2 hr) o d fuel (by
            simp only [List.length_append, List.length_cons] at hfuel2 ⊢
            omega)]
          rw [path.cleanLoop_fuel rooted t2.length t2 (Nat.le_refl _) r.length ht2]
        show path.cleanLoop rooted (fuel + 1) (c :: (r ++ '/' :: s)) out dd =
          K (path.cleanLoop rooted (r.length + 1) (c :: r) out dd)
        simp only [path.cleanLoop]
        by_cases h1 : c = '/'
        · rw [if_pos h1, if_pos h1]
          exact ihr r (Nat.le_refl _) out dd
        · rw [if_neg h1, if_neg h1]
          have f1 : (c = '.' ∧ (r ++ '/' :: s = [] ∨ (r ++ '/' :: s).head? = some '/')) ↔
              (c = '.' ∧ (r = [] ∨ r.head? = some '/')) := by
            cases r <;> simp
          by_cases h2 : c = '.' ∧ (r = [] ∨ r.head? = some '/')
          · rw [if_pos h2, if_pos (f1.mpr h2)]
            exact ihr r (Nat.le_refl _) out dd
          · rw [if_neg h2, if_neg (fun h => h2 (f1.mp h))]
            have f2 : (c = '.' ∧ (r ++ '/' :: s).head? = some '.' ∧
                ((r ++ '/' :: s).tail = [] ∨ (r ++ '/' :: s).tail.head? = some '/')) ↔
                (c = '.' ∧ r.head? = some '.' ∧ (r.tail = [] ∨ r.tail.head? = some '/')) := by
              cases r with
              | nil => simp
              | cons x r2 => cases r2 <;> simp
            by_cases h3 : c = '.' ∧ r.head? = some '.' ∧ (r.tail = [] ∨ r.tail.head? = some '/')
            · rw [if_pos h3, if_pos (f2.mpr h3)]
              have hne : r ≠ [] := by
                intro hnil
                rw [hnil] at h3
                simp at h3
              have htail : (r ++ '/' :: s).tail = r.tail ++ '/' :: s := by
                cases r with
                | nil => exact absurd rfl hne
                | cons x r2 => rfl
              have hlt : r.tail.length ≤ r.length := by
                rw [List.length_tail]; omega
              rw [htail]
              split
              · exact ihr r.tail hlt _ _
              · split
                · exact ihr r.tail hlt _ _
                · exact ihr r.tail hlt _ _
            · rw [if_neg h3, if_neg (fun h => h3 (f2.mp h))]
              rw [takeWhile_append_of_stop _ '/' s (by decide),
                dropWhile_append_of_stop _ '/' s (by decide)]
              exact ihr _ (length_dropWhile_le _ r) _ _


theorem path.cleanLoop_slash_plain (rooted : Bool) (c : GoString) (hc : path.plainName c)
    (o : GoString) (d fuel : Nat) (hf : c.length + 1 ≤ fuel) :
    path.cleanLoop rooted fuel ('/' :: c) o d =
      ((if (rooted = true ∧ o.length ≠ 1) ∨ (rooted = false ∧ o.length ≠ 0)
        then o ++ ['/'] else o) ++ c, d) := by
  obtain ⟨hne, hslash, hdot, hdotdot⟩ := hc
  cases c with
  | nil => exact absurd rfl hne
  | cons c0 r0 =>
    have hc0 : c0 ≠ '/' := fun h => hslash (h ▸ List.mem_cons_self _ _)
    have hr0 : ∀ x ∈ r0, x ≠ '/' := fun x hx h => hslash (h ▸ List.mem_cons_of_mem _ hx)
    obtain ⟨f, rfl⟩ : ∃ f, fuel = f + 2 := ⟨fuel - 2, by
      simp only [List.length_cons] at hf; omega⟩
    have h2 : ¬ (c0 = '.' ∧ (r0 = [] ∨ r0.head? = some '/')) := by
      rintro ⟨h0, h | h⟩
      · exact hdot (by rw [h0, h])
      · cases r0 with
        | nil => simp at h
        | cons x r1 =>
          simp only [List.head?_cons, Option.some.injEq] at h
          exact hr0 x (List.mem_cons_self _ _) h
    have h3 : ¬ (c0 = '.' ∧ r0.head? = some '.' ∧ (r0.tail = [] ∨ r0.tail.head? = some '/')) := by
      rintro ⟨h0, h1, h⟩
      cases r0 with
      | nil => simp at h1
      | cons x r1 =>
        simp only [List.head?_cons, Option.some.injEq] at h1
        simp only [List.tail_cons] at h
        rcases h with h | h
        · exact hdotdot (by rw [h0, h1, h])
        · cases r1 with
          | nil => simp at h
          | cons y r2 =>
            simp only [List.head?_cons, Option.some.injEq] at h
            exact hr0 y (List.mem_cons_of_mem _ (List.mem_cons_self _ _)) h
    have htake : r0.takeWhile (fun x => decide (x ≠ '/')) = r0 := by
      rw [List.takeWhile_eq_self_iff]
      intro x hx
      exact decide_eq_true (hr0 x hx)
    have hdrop : r0.dropWhile (fun x => decide (x ≠ '/')) = [] := by
      rw [List.dropWhile_eq_nil_iff]
      intro x hx
      exact decide_eq_true (hr0 x hx)
    simp only [path.cleanLoop, if_true, if_neg hc0, if_neg h2, if_neg h3, htake, hdrop,
      path.cleanLoop_nil]

theorem path.Clean_append_plain (t c : GoString) (ht : path.Clean t = t) (hdot : t ≠ ['.'])
    (hroot : t ≠ ['/']) (hc : path.plainName c) :
    path.Clean (t ++ '/' :: c) = t ++ '/' :: c := by
  cases t with
  | nil => exact absurd ht (by decide)
  | cons c0 r =>
    by_cases h0 : c0 = '/'
    · subst h0
      have hst : (path.cleanLoop true r.length r ['/'] 1).1 = '/' :: r := by
        have := ht
        unfold path.Clean at this
        simp only [if_true] at this
        split at this
        · exact absurd this (by simp)
        · exact this
      have hlen : ('/' :: r).length ≠ 1 := by
        intro h
        apply hroot
        have : r = [] := List.length_eq_zero.mp (by simpa using h)
        rw [this]
      have key := path.cleanLoop_append true c
        (fun st => ((if (true = true ∧ st.1.length ≠ 1) ∨ (true = false ∧ st.1.length ≠ 0)
          then st.1 ++ ['/'] else st.1) ++ c, st.2))
        (fun o d fuel hf => path.cleanLoop_slash_plain true c hc o d fuel hf)
        r.length r (Nat.le_refl _) ['/'] 1 (r ++ '/' :: c).length (Nat.le_refl _)
      unfold path.Clean
      simp only [List.cons_append, if_true]
      rw [key]
      simp only [hst]
      have hr : r ≠ [] := fun h => hroot (by rw [h])
      simp [hr]
    · have hst : (path.cleanLoop false (r.length + 1) (c0 :: r) [] 0).1 = c0 :: r := by
        have := ht
        unfold path.Clean at this
        simp only [if_neg h0] at this
        split at this
        · exact absurd this.symm hdot
        · exact this
      have key : path.cleanLoop false ((r ++ '/' :: c).length + 1) (c0 :: (r ++ '/' :: c)) [] 0 =
          ((if (false = true ∧ (path.cleanLoop false (r.length + 1) (c0 :: r) [] 0).1.length ≠ 1) ∨
              (false = false ∧ (path.cleanLoop false (r.length + 1) (c0 :: r) [] 0).1.length ≠ 0)
            then (path.cleanLoop false (r.length + 1) (c0 :: r) [] 0).1 ++ ['/']
            else (path.cleanLoop false (r.length + 1) (c0 :: r) [] 0).1) ++ c,
            (path.cleanLoop false (r.length + 1) (c0 :: r) [] 0).2) :=
        path.cleanLoop_append false c
          (fun st => ((if (false = true ∧ st.1.length ≠ 1) ∨ (false = false ∧ st.1.length ≠ 0)
            then st.1 ++ ['/'] else st.1) ++ c, st.2))
          (fun o d fuel hf => path.cleanLoop_slash_plain false c hc o d fuel hf)
          (r.length + 1) (c0 :: r) (Nat.le_refl _) [] 0 ((c0 :: r) ++ '/' :: c).length
          (Nat.le_refl _)
      unfold path.Clean
      simp only [List.cons_append, if_neg h0]
      rw [key]
      simp only [hst]
      simp

theorem path.Join_pair (t c : GoString) (ht : path.Clean t = t) (hdot : t ≠ ['.'])
    (hroot : t ≠ ['/']) (hc : path.plainName c) :
    path.Join [t, c] = t ++ '/' :: c := by
  have hne : t ≠ [] := by
    intro h
    rw [h] at ht
    exact absurd ht (by decide)
  have hlen : 0 < t.length := List.length_pos.mpr hne
  unfold path.Join path.joinBuf path.joinBuf path.joinBuf
  have hsum : ¬ (List.map List.length [t, c]).sum = 0 := by
    simp only [List.map_cons, List.map_nil, List.sum_cons, List.sum_nil]
    omega
  rw [if_neg hsum]
  simp only [List.length_nil, Nat.lt_irrefl, false_or, ne_eq, hne, not_false_eq_true, if_true,
    if_false, List.nil_append, hlen, true_or]
  rw [List.append_assoc]
  exact path.Clean_append_plain t c ht hdot hroot hc

/-! ## `strconv.Itoa` -/

theorem strconv.digitChar_spec (d : Nat) (h : d < 10) :
    (strconv.digitChar d).isDigit = true ∧ strconv.digitChar d ≠ '/' ∧
      strconv.digitChar d ≠ '.' := by
  interval_cases d <;> decide

theorem strconv.mem_formatBits (c : Char) :
    ∀ (fuel n : Nat) (acc : GoString), c ∈ strconv.formatBits fuel n acc →
      c ∈ acc ∨ ∃ d, d < 10 ∧ c = strconv.digitChar d := by
  intro fuel
  induction fuel with
  | zero => intro n acc h; exact Or.inl h
  | succ fuel ih =>
    intro n acc h
    unfold strconv.formatBits at h
    by_cases hn : n < 10
    · rw [if_pos hn] at h
      rcases List.mem_cons.mp h with h | h
      · exact Or.inr ⟨n, hn, h⟩
      · exact Or.inl h
    · rw [if_neg hn] at h
      rcases ih _ _ h with h | h
      · rcases List.mem_cons.mp h with h | h
        · exact Or.inr ⟨n % 10, Nat.mod_lt _ (by decide), h⟩
        · exact Or.inl h
      · exact Or.inr h

theorem strconv.formatBits_ne_nil :
    ∀ (fuel n : Nat) (acc : GoString), n < fuel → strconv.formatBits fuel n acc ≠ [] := by
  intro fuel
  induction fuel with
  | zero => intro n acc h; exact absurd h (Nat.not_lt_zero _)
  | succ fuel ih =>
    intro n acc h
    unfold strconv.formatBits
    by_cases hn : n < 10
    · rw [if_pos hn]; exact List.cons_ne_nil _ _
    · rw [if_neg hn]
      exact ih _ _ (by omega)

theorem strconv.Itoa_plain (i : Int) : path.plainName (strconv.Itoa i) := by
  have hchars : ∀ c ∈ strconv.Itoa i, c ≠ '/' ∧ c ≠ '.' := by
    intro c hc
    have hdig : ∀ c ∈ strconv.formatBits (i.natAbs + 1) i.natAbs [], c ≠ '/' ∧ c ≠ '.' := by
      intro c hc
      rcases strconv.mem_formatBits c _ _ _ hc with h | ⟨d, hd, rfl⟩
      · exact absurd h (List.not_mem_nil _)
      · exact (strconv.digitChar_spec d hd).2
    unfold strconv.Itoa at hc
    by_cases hi : i < 0
    · rw [if_pos hi] at hc
      rcases List.mem_cons.mp hc with h | h
      · subst h; exact ⟨by decide, by decide⟩
      · exact hdig c h
    · rw [if_neg hi] at hc
      exact hdig c hc
  have hne : strconv.Itoa i ≠ [] := by
    unfold strconv.Itoa
    by_cases hi : i < 0
    · rw [if_pos hi]; exact List.cons_ne_nil _ _
    · rw [if_neg hi]
      exact strconv.formatBits_ne_nil _ _ _ (Nat.lt_succ_self _)
  refine ⟨hne, fun h => (hchars _ h).1 rfl, ?_, ?_⟩
  · intro h
    exact (hchars '.' (by rw [h]; exact List.mem_cons_self _ _)).2 rfl
  · intro h
    exact (hchars '.' (by rw [h]; exact List.mem_cons_self _ _)).2 rfl

theorem strconv.formatBits_succ (fuel n : Nat) (acc : GoString) :
    strconv.formatBits (fuel + 1) n acc =
      if n < 10 then strconv.digitChar n :: acc
      else strconv.formatBits fuel (n / 10) (strconv.digitChar (n % 10) :: acc) := rfl

theorem strconv.Itoa_four_digits (i : Int) (hlo : 1000 ≤ i) (hhi : i ≤ 9999) :
    (strconv.Itoa i).length = 4 ∧ ∀ c ∈ strconv.Itoa i, c.isDigit = true := by
  obtain ⟨n, rfl⟩ := Int.eq_ofNat_of_zero_le (le_trans (by decide) hlo)
  have hlo2 : 1000 ≤ n := by exact_mod_cast hlo
  have hhi2 : n ≤ 9999 := by exact_mod_cast hhi
  have hpos : ¬ ((n : Int) < 0) := by omega
  unfold strconv.Itoa
  rw [if_neg hpos, Int.natAbs_ofNat]
  constructor
  · obtain ⟨m, rfl⟩ : ∃ m, n = m + 1000 := ⟨n - 1000, by omega⟩
    have h1 : ¬ (m + 1000 < 10) := by omega
    have h2 : ¬ ((m + 1000) / 10 < 10) := by omega
    have h3 : ¬ ((m + 1000) / 10 / 10 < 10) := by omega
    have h4 : (m + 1000) / 10 / 10 / 10 < 10 := by omega
    show (strconv.formatBits (m + 997 + 1 + 1 + 1 + 1) (m + 1000) []).length = 4
    rw [strconv.formatBits_succ, if_neg h1, strconv.formatBits_succ, if_neg h2,
      strconv.formatBits_succ, if_neg h3, strconv.formatBits_succ, if_pos h4]
    rfl
  · intro c hc
    rcases strconv.mem_formatBits c _ _ _ hc with h | ⟨d, hd, rfl⟩
    · exact absurd h (List.not_mem_nil _)
    · exact (strconv.digitChar_spec d hd).1

/-! ## The destination of a file -/

theorem getElem?_append_length (l : List Event) (a : Event) (r : List Event) :
    (l ++ a :: r)[l.length]? = some a := by
  induction l with
  | nil => simp
  | cons x l ih => simpa using ih

theorem processFile_first_event (cfg : Config) (w : World) (name : GoString)
    (modified : Time) :
    (processFile cfg w name modified).trace[w.trace.length]? =
      some (Event.stat (targetFile cfg name modified)) := by
  cases hl : os.lookup w.fs (targetFile cfg name modified) with
  | ok n =>
    rw [processFile_of_stat_ok cfg w name modified n hl]
    exact getElem?_append_length _ _ _
  | error e =>
    by_cases he : e = Errno.ENOENT
    · subst he
      obtain ⟨more, hmore⟩ := processFile_of_stat_notExist cfg w name modified hl
      rw [hmore, List.append_assoc]
      exact getElem?_append_length _ _ _
    · rw [processFile_of_stat_other cfg w name modified e hl he]
      exact getElem?_append_length _ _ _

theorem path.backtrack_descend (A e : GoString) (dd : Nat) (hslash : '/' ∉ e)
    (hdd : dd ≤ A.length) :
    ∀ (j fuel : Nat), j < e.length → j ≤ fuel →
      path.backtrack (A ++ e) dd fuel (A.length + j) =
        path.backtrack (A ++ e) dd (fuel - j) A.length := by
  intro j
  induction j with
  | zero => intro fuel _ _; rfl
  | succ j ih =>
    intro fuel hj hfuel
    obtain ⟨f, rfl⟩ : ∃ f, fuel = f + 1 := ⟨fuel - 1, by omega⟩
    have hget : (A ++ e)[A.length + (j + 1)]? ≠ some '/' := by
      rw [List.getElem?_append_right (by omega)]
      have hidx : A.length + (j + 1) - A.length = j + 1 := by omega
      rw [hidx, List.getElem?_eq_getElem hj]
      intro h
      apply hslash
      have h2 : e[j + 1] = '/' := Option.some.inj h
      rw [← h2]
      exact List.getElem_mem _
    have hcond : dd < A.length + (j + 1) ∧ (A ++ e)[A.length + (j + 1)]? ≠ some '/' :=
      ⟨by omega, hget⟩
    show (if dd < A.length + (j + 1) ∧ (A ++ e)[A.length + (j + 1)]? ≠ some '/'
        then path.backtrack (A ++ e) dd f (A.length + (j + 1) - 1)
        else A.length + (j + 1)) = _
    rw [if_pos hcond]
    have hidx : A.length + (j + 1) - 1 = A.length + j := by omega
    rw [hidx, ih f (by omega) (by omega)]
    have hf : f + 1 - (j + 1) = f - j := by omega
    rw [hf]

theorem path.backtrack_withSlash (rooted : Bool) (o e : GoString) (dd : Nat)
    (he : path.plainName e) (hdd : dd ≤ o.length)
    (hnosep : path.withSlash rooted o = o → dd = o.length) :
    path.backtrack (path.withSlash rooted o ++ e) dd (path.withSlash rooted o ++ e).length
      ((path.withSlash rooted o ++ e).length - 1) = o.length := by
  obtain ⟨hne, hslash, _, _⟩ := he
  have hpos : 0 < e.length := List.length_pos.mpr hne
  have hA : dd ≤ (path.withSlash rooted o).length := by
    unfold path.withSlash
    split
    · simp only [List.length_append, List.length_singleton]; omega
    · exact hdd
  have hstart : (path.withSlash rooted o ++ e).length - 1 =
      (path.withSlash rooted o).length + (e.length - 1) := by
    simp only [List.length_append]; omega
  rw [hstart, path.backtrack_descend _ e dd hslash hA (e.length - 1) _ (by omega)
    (by simp only [List.length_append]; omega)]
  have hfuel : (path.withSlash rooted o ++ e).length - (e.length - 1) =
      (path.withSlash rooted o).length + 1 := by
    simp only [List.length_append]; omega
  rw [hfuel]
  by_cases hsep : (rooted = true ∧ o.length ≠ 1) ∨ (rooted = false ∧ o.length ≠ 0)
  · have hw : path.withSlash rooted o = o ++ ['/'] := by
      unfold path.withSlash; rw [if_pos hsep]
    rw [hw]
    have hlen : (o ++ ['/']).length = o.length + 1 := by simp
    have hget0 : (o ++ ['/'] ++ e)[o.length + 1]? ≠ some '/' := by
      rw [List.getElem?_append_right (by simp)]
      have hidx : o.length + 1 - (o ++ ['/']).length = 0 := by simp
      rw [hidx, List.getElem?_eq_getElem hpos]
      intro h
      apply hslash
      have h2 : e[0] = '/' := Option.some.inj h
      rw [← h2]
      exact List.getElem_mem _
    have hget1 : (o ++ ['/'] ++ e)[o.length]? = some '/' := by
      rw [List.append_assoc, List.getElem?_append_right (Nat.le_refl _)]
      simp
    rw [hlen]
    show (if dd < o.length + 1 ∧ (o ++ ['/'] ++ e)[o.length + 1]? ≠ some '/'
        then path.backtrack (o ++ ['/'] ++ e) dd (o.length + 1) (o.length + 1 - 1)
        else o.length + 1) = o.length
    rw [if_pos ⟨by omega, hget0⟩]
    show (if dd < o.length + 1 - 1 ∧ (o ++ ['/'] ++ e)[o.length + 1 - 1]? ≠ some '/'
        then path.backtrack (o ++ ['/'] ++ e) dd o.length (o.length + 1 - 1 - 1)
        else o.length + 1 - 1) = o.length
    have hidx : o.length + 1 - 1 = o.length := by omega
    rw [hidx, if_neg (fun h => h.2 hget1)]
  · have hw : path.withSlash rooted o = o := by
      unfold path.withSlash; rw [if_neg hsep]
    have hdd2 := hnosep hw
    rw [hw]
    show (if dd < o.length ∧ (o ++ e)[o.length]? ≠ some '/'
        then path.backtrack (o ++ e) dd o.length (o.length - 1)
        else o.length) = o.length
    rw [if_neg (fun h => by omega)]


theorem path.withSlash_eq_self (rooted : Bool) (o : GoString)
    (h : path.withSlash rooted o = o) :
    ¬ ((rooted = true ∧ o.length ≠ 1) ∨ (rooted = false ∧ o.length ≠ 0)) := by
  intro hc
  unfold path.withSlash at h
  rw [if_pos hc] at h
  have := congrArg List.length h
  simp at this

theorem path.Cleaned.facts {rooted : Bool} {o : GoString} {dd : Nat}
    (h : path.Cleaned rooted o dd) :
    dd ≤ o.length ∧ (rooted = true → o.head? = some '/') ∧
      (rooted = false → o.head? ≠ some '/') ∧ (path.withSlash rooted o = o → dd = o.length) := by
  induction h with
  | root hr => simp [hr]
  | empty hr => simp [hr]
  | dotdot o hr _ ih =>
    refine ⟨Nat.le_refl _, fun h => by rw [hr] at h; exact absurd h (by decide), ?_, fun _ => rfl⟩
    intro _
    cases o with
    | nil => simp
    | cons x o2 =>
      have := ih.2.2.1 hr
      simpa using this
  | elem o dd e _ he ih =>
    obtain ⟨hne, hslash, _, _⟩ := he
    have hpos : 0 < e.length := List.length_pos.mpr hne
    have hlen : o.length ≤ (path.withSlash rooted o).length := by
      unfold path.withSlash
      split <;> simp
    refine ⟨?_, ?_, ?_, ?_⟩
    · simp only [List.length_append]
      omega
    · intro hr
      have ho := ih.2.1 hr
      cases o with
      | nil => simp at ho
      | cons x o2 =>
        unfold path.withSlash
        split <;> simpa using ho
    · intro hr
      cases o with
      | nil =>
        have hw : path.withSlash rooted [] = [] := by
          unfold path.withSlash
          simp [hr]
        rw [hw]
        cases e with
        | nil => exact absurd rfl hne
        | cons y e2 =>
          simp only [List.nil_append, List.head?_cons, ne_eq, Option.some.injEq]
          intro hy
          exact hslash (hy ▸ List.mem_cons_self _ _)
      | cons x o2 =>
        have ho := ih.2.2.1 hr
        unfold path.withSlash
        split <;> simpa using ho
    · intro hself
      exfalso
      apply path.withSlash_eq_self rooted _ hself
      have hnew : o.length + 1 ≤ (path.withSlash rooted o ++ e).length := by
        simp only [List.length_append]
        omega
      by_cases hr : rooted = true
      · left
        refine ⟨hr, ?_⟩
        have ho := ih.2.1 hr
        have : 0 < o.length := by
          cases o with
          | nil => simp at ho
          | cons x o2 => simp
        omega
      · right
        refine ⟨by simpa using hr, ?_⟩
        omega

theorem path.plainName_element (c : Char) (r : GoString) (h1 : c ≠ '/')
    (h2 : ¬ (c = '.' ∧ (r = [] ∨ r.head? = some '/')))
    (h3 : ¬ (c = '.' ∧ r.head? = some '.' ∧ (r.tail = [] ∨ r.tail.head? = some '/'))) :
    path.plainName (c :: r.takeWhile (fun x => decide (x ≠ '/'))) := by
  refine ⟨List.cons_ne_nil _ _, ?_, ?_, ?_⟩
  · intro hmem
    rcases List.mem_cons.mp hmem with h | h
    · exact h1 h.symm
    · have := List.mem_takeWhile_imp h
      simp at this
  · intro h
    have hc : c = '.' := by simpa using (List.cons.inj h).1
    have ht : r.takeWhile (fun x => decide (x ≠ '/')) = [] := (List.cons.inj h).2
    apply h2
    refine ⟨hc, ?_⟩
    cases r with
    | nil => exact Or.inl rfl
    | cons x r2 =>
      right
      rw [List.takeWhile_cons] at ht
      by_cases hx : x = '/'
      · simp [hx]
      · simp [hx] at ht
  · intro h
    have hc : c = '.' := by simpa using (List.cons.inj h).1
    have ht : r.takeWhile (fun x => decide (x ≠ '/')) = ['.'] := (List.cons.inj h).2
    apply h3
    refine ⟨hc, ?_⟩
    cases r with
    | nil => simp at ht
    | cons x r2 =>
      rw [List.takeWhile_cons] at ht
      by_cases hx : x = '/'
      · simp [hx] at ht
      · simp only [ne_eq, hx, not_false_eq_true, decide_True, if_true, List.cons.injEq] at ht
        refine ⟨by simp [ht.1], ?_⟩
        simp only [List.tail_cons]
        cases r2 with
        | nil => exact Or.inl rfl
        | cons y r3 =>
          right
          have ht2 := ht.2
          rw [List.takeWhile_cons] at ht2
          by_cases hy : y = '/'
          · simp [hy]
          · simp [hy] at ht2

theorem path.cleanLoop_cleaned (rooted : Bool) :
    ∀ (fuel : Nat) (rest o : GoString) (dd : Nat), path.Cleaned rooted o dd →
      path.Cleaned rooted (path.cleanLoop rooted fuel rest o dd).1
        (path.cleanLoop rooted fuel rest o dd).2 := by
  intro fuel
  induction fuel with
  | zero => intro rest o dd h; exact h
  | succ fuel ih =>
    intro rest o dd h
    cases rest with
    | nil => exact h
    | cons c r =>
      simp only [path.cleanLoop]
      split
      · exact ih _ _ _ h
      · split
        · exact ih _ _ _ h
        · split
          · split
            · rename_i hlt
              apply ih
              cases h with
              | root hr => simp at hlt
              | empty hr => simp at hlt
              | dotdot o2 hr h2 => simp at hlt
              | elem o2 dd2 e h2 he =>
                have hf := h2.facts
                rw [path.backtrack_withSlash rooted o2 e dd he hf.1 hf.2.2.2]
                have htake : (path.withSlash rooted o2 ++ e).take o2.length = o2 := by
                  unfold path.withSlash
                  split
                  · rw [List.append_assoc]; simp
                  · simp
                rw [htake]
                exact h2
            · rename_i hlt
              split
              · rename_i hr
                apply ih
                have hdd : dd = o.length := le_antisymm h.facts.1 (not_lt.mp hlt)
                rw [hdd] at h
                exact path.Cleaned.dotdot o hr h
              · exact ih _ _ _ h
          · rename_i h1 h2 h3
            apply ih
            exact path.Cleaned.elem o dd _ h (path.plainName_element c r h1 h2 h3)


theorem path.cleanLoop_plain (rooted : Bool) (e : GoString) (he : path.plainName e)
    (o : GoString) (d fuel : Nat) (hf : e.length ≤ fuel) :
    path.cleanLoop rooted fuel e o d = (path.withSlash rooted o ++ e, d) := by
  have h := path.cleanLoop_slash_plain rooted e he o d (fuel + 1) (by omega)
  have hstep : path.cleanLoop rooted (fuel + 1) ('/' :: e) o d =
      path.cleanLoop rooted fuel e o d := by
    simp only [path.cleanLoop, if_true]
  rw [hstep] at h
  exact h

theorem path.cleanLoop_of_cleaned (rooted : Bool) {o : GoString} {dd : Nat}
    (h : path.Cleaned rooted o dd) :
    (rooted = true → path.cleanLoop true o.tail.length o.tail ['/'] 1 = (o, dd)) ∧
    (rooted = false → path.cleanLoop false o.length o [] 0 = (o, dd)) := by
  induction h with
  | root hr =>
    exact ⟨fun _ => rfl, fun h => by rw [hr] at h; exact absurd h (by decide)⟩
  | empty hr =>
    exact ⟨fun h => by rw [hr] at h; exact absurd h (by decide), fun _ => rfl⟩
  | dotdot o hr h2 ih =>
    refine ⟨fun h => by rw [hr] at h; exact absurd h (by decide), fun _ => ?_⟩
    have ih2 := ih.2 hr
    cases o with
    | nil => rfl
    | cons x o2 =>
      have hform : (if 0 < (x :: o2).length then (x :: o2) ++ ['/'] else (x :: o2)) ++ ['.', '.'] =
          (x :: o2) ++ '/' :: ['.', '.'] := by simp
      rw [hform]
      rw [path.cleanLoop_append false ['.', '.']
        (fun st => path.cleanLoop false 3 ('/' :: ['.', '.']) st.1 st.2)
        (fun o d fuel hf => path.cleanLoop_fuel false fuel _ (by simpa using hf) 3 (by simp) o d)
        (x :: o2).length (x :: o2) (Nat.le_refl _) [] 0 _ (Nat.le_refl _)]
      rw [ih2]
      simp [path.cleanLoop]
  | elem o dd e h2 he ih =>
    have hf := h2.facts
    constructor
    · intro hr
      subst hr
      have ih1 := ih.1 rfl
      have ho := hf.2.1 rfl
      cases o with
      | nil => simp at ho
      | cons x r0 =>
        have hx : x = '/' := by simpa using ho
        subst hx
        simp only [List.tail_cons] at ih1
        cases r0 with
        | nil =>
          have hdd : dd = 1 := by
            have := congrArg Prod.snd ih1
            simpa using this.symm
          have hw : path.withSlash true ['/'] = ['/'] := by decide
          rw [hw, hdd]
          simp only [List.singleton_append, List.tail_cons]
          rw [path.cleanLoop_plain true e he ['/'] 1 e.length (Nat.le_refl _), hw]
          rfl
        | cons y r1 =>
          have hw : path.withSlash true ('/' :: y :: r1) = '/' :: y :: r1 ++ ['/'] := by
            unfold path.withSlash
            simp
          have hform : (path.withSlash true ('/' :: y :: r1) ++ e).tail =
              (y :: r1) ++ '/' :: e := by
            rw [hw]; simp
          rw [hform]
          rw [path.cleanLoop_append true e
            (fun st => (path.withSlash true st.1 ++ e, st.2))
            (fun o d fuel hf => path.cleanLoop_slash_plain true e he o d fuel hf)
            (y :: r1).length (y :: r1) (Nat.le_refl _) ['/'] 1 _ (Nat.le_refl _)]
          rw [ih1]
    · intro hr
      subst hr
      have ih2 := ih.2 rfl
      cases o with
      | nil =>
        have hdd : dd = 0 := by
          have := congrArg Prod.snd ih2
          simpa [path.cleanLoop] using this.symm
        have hw : path.withSlash false [] = [] := by decide
        rw [hw, hdd]
        simp only [List.nil_append]
        rw [path.cleanLoop_plain false e he [] 0 e.length (Nat.le_refl _), hw]
        rfl
      | cons x o2 =>
        have hw : path.withSlash false (x :: o2) = x :: o2 ++ ['/'] := by
          unfold path.withSlash
          simp
        have hform : path.withSlash false (x :: o2) ++ e = (x :: o2) ++ '/' :: e := by
          rw [hw]; simp
        rw [hform]
        rw [path.cleanLoop_append false e
          (fun st => (path.withSlash false st.1 ++ e, st.2))
          (fun o d fuel hf => path.cleanLoop_slash_plain false e he o d fuel hf)
          (x :: o2).length (x :: o2) (Nat.le_refl _) [] 0 _ (Nat.le_refl _)]
        rw [ih2]
        simp only [hw]
        simp


theorem path.Clean_eq (p : GoString) :
    path.Clean p =
      if (path.cleanState p).1.length = 0 then ['.'] else (path.cleanState p).1 := by
  cases p with
  | nil => rfl
  | cons c r =>
    unfold path.Clean path.cleanState
    by_cases hc : c = '/'
    · simp only [hc, if_true]
    · simp only [hc, if_false]

theorem path.Clean_ne_nil (p : GoString) : path.Clean p ≠ [] := by
  rw [path.Clean_eq]
  split
  · exact List.cons_ne_nil _ _
  · rename_i h
    intro h2
    exact h (by rw [h2]; rfl)

theorem path.cleanState_cleaned (c : Char) (r : GoString) :
    path.Cleaned (decide (c = '/')) (path.cleanState (c :: r)).1 (path.cleanState (c :: r)).2 := by
  unfold path.cleanState
  by_cases hc : c = '/'
  · simp only [hc, if_true, decide_True]
    exact path.cleanLoop_cleaned true _ _ _ _ (path.Cleaned.root rfl)
  · simp only [hc, if_false, decide_False]
    exact path.cleanLoop_cleaned false _ _ _ _ (path.Cleaned.empty rfl)

theorem path.Clean_append_state (c : Char) (r e : GoString) (he : path.plainName e) :
    path.Clean ((c :: r) ++ '/' :: e) =
      path.withSlash (decide (c = '/')) (path.cleanState (c :: r)).1 ++ e := by
  have hne : e ≠ [] := he.1
  by_cases hc : c = '/'
  · subst hc
    have key := path.cleanLoop_append true e
      (fun st => (path.withSlash true st.1 ++ e, st.2))
      (fun o d fuel hf => path.cleanLoop_slash_plain true e he o d fuel hf)
      r.length r (Nat.le_refl _) ['/'] 1 (r ++ '/' :: e).length (Nat.le_refl _)
    rw [path.Clean_eq]
    have hst : path.cleanState ('/' :: r ++ '/' :: e) =
        (path.withSlash true (path.cleanState ('/' :: r)).1 ++ e,
          (path.cleanState ('/' :: r)).2) := by
      unfold path.cleanState
      simp only [List.cons_append, if_true]
      exact key
    rw [hst]
    simp [hne]
  · have key : path.cleanLoop false ((r ++ '/' :: e).length + 1) (c :: (r ++ '/' :: e)) [] 0 =
        (path.withSlash false (path.cleanLoop false (r.length + 1) (c :: r) [] 0).1 ++ e,
          (path.cleanLoop false (r.length + 1) (c :: r) [] 0).2) :=
      path.cleanLoop_append false e
        (fun st => (path.withSlash false st.1 ++ e, st.2))
        (fun o d fuel hf => path.cleanLoop_slash_plain false e he o d fuel hf)
        (r.length + 1) (c :: r) (Nat.le_refl _) [] 0 ((c :: r) ++ '/' :: e).length
        (Nat.le_refl _)
    rw [path.Clean_eq]
    have hst : path.cleanState (c :: r ++ '/' :: e) =
        (path.withSlash false (path.cleanState (c :: r)).1 ++ e,
          (path.cleanState (c :: r)).2) := by
      unfold path.cleanState
      simp only [List.cons_append, hc, if_false]
      exact key
    rw [hst]
    simp [hne, hc]

theorem path.cleanState_of_cleaned (rooted : Bool) (x : Char) (o2 : GoString) (dd : Nat)
    (h : path.Cleaned rooted (x :: o2) dd) :
    decide (x = '/') = rooted ∧ path.cleanState (x :: o2) = (x :: o2, dd) := by
  have hf := h.facts
  have hid := path.cleanLoop_of_cleaned rooted h
  cases rooted with
  | true =>
    have hx : x = '/' := by simpa using hf.2.1 rfl
    subst hx
    refine ⟨by decide, ?_⟩
    unfold path.cleanState
    simp only [if_true]
    exact hid.1 rfl
  | false =>
    have hx : x ≠ '/' := by simpa using hf.2.2.1 rfl
    refine ⟨by simp [hx], ?_⟩
    unfold path.cleanState
    simp only [hx, if_false]
    exact hid.2 rfl

/-- `Clean` is idempotent. -/
theorem path.Clean_Clean (p : GoString) : path.Clean (path.Clean p) = path.Clean p := by
  cases p with
  | nil => decide
  | cons c r =>
    have hcl := path.cleanState_cleaned c r
    rw [path.Clean_eq (c :: r)]
    split
    · decide
    · rename_i hlen
      cases ho : (path.cleanState (c :: r)).1 with
      | nil => rw [ho] at hlen; exact absurd rfl hlen
      | cons x o2 =>
        rw [ho] at hcl
        obtain ⟨_, hst⟩ := path.cleanState_of_cleaned _ x o2 _ hcl
        rw [path.Clean_eq, hst]
        simp

theorem path.Clean_Clean_append (p e : GoString) (hp : p ≠ []) (he : path.plainName e) :
    path.Clean (path.Clean p ++ '/' :: e) = path.Clean (p ++ '/' :: e) := by
  cases p with
  | nil => exact absurd rfl hp
  | cons c r =>
    have hcl := path.cleanState_cleaned c r
    rw [path.Clean_append_state c r e he, path.Clean_eq (c :: r)]
    cases ho : (path.cleanState (c :: r)).1 with
    | nil =>
      rw [ho] at hcl
      have hroot : decide (c = '/') = false := by
        cases hb : decide (c = '/') with
        | false => rfl
        | true =>
          rw [hb] at hcl
          have := hcl.facts.2.1 rfl
          simp at this
      simp only [List.length_nil, if_true]
      rw [path.Clean_append_state '.' [] e he, hroot]
      rfl
    | cons x o2 =>
      rw [ho] at hcl
      obtain ⟨hb, hst⟩ := path.cleanState_of_cleaned _ x o2 _ hcl
      simp only [List.length_cons, Nat.add_one_ne_zero, if_false]
      rw [path.Clean_append_state x o2 e he, hst, hb]

theorem path.Join_pair_eq (t c : GoString) (ht : t ≠ []) :
    path.Join [t, c] = path.Clean (t ++ '/' :: c) := by
  have hlen : 0 < t.length := List.length_pos.mpr ht
  unfold path.Join path.joinBuf path.joinBuf path.joinBuf
  have hsum : ¬ (List.map List.length [t, c]).sum = 0 := by
    simp only [List.map_cons, List.map_nil, List.sum_cons, List.sum_nil]
    omega
  rw [if_neg hsum]
  simp only [List.length_nil, Nat.lt_irrefl, false_or, ne_eq, ht, not_false_eq_true, if_true,
    if_false, List.nil_append, hlen, true_or]
  rw [List.append_assoc]
  rfl

/-- C3: for a target path that is not empty and a plain file name, as a
directory entry has, the destination that `processFile` computes and passes
to `os.Stat` for a file modified in the year `Y` is the path
`<targetPath>/<Y>/<name>` in cleaned form, where `<Y>` is the decimal
rendering of the year, for every year; it is the text
`<targetPath>/<Y>/<name>` itself, with `<targetPath>` in cleaned form, unless
the target path is the root or the working directory; and for the years 1000
to 9999 the rendering of the year is exactly four decimal digits. -/
theorem C3_year_routing (cfg : Config) (w : World) (name : GoString) (modified : Time)
    (htarget : cfg.targetPath ≠ []) (hname : path.plainName name) :
    targetFile cfg name modified =
      path.Clean (cfg.targetPath ++ '/' :: (strconv.Itoa modified.Year ++ '/' :: name)) ∧
    (path.Clean cfg.targetPath ≠ ['.'] → path.Clean cfg.targetPath ≠ ['/'] →
      targetFile cfg name modified =
        path.Clean cfg.targetPath ++ '/' :: (strconv.Itoa modified.Year ++ '/' :: name)) ∧
    (processFile cfg w name modified).trace[w.trace.length]? =
      some (Event.stat (targetFile cfg name modified)) ∧
    (1000 ≤ modified.Year → modified.Year ≤ 9999 →
      (strconv.Itoa modified.Year).length = 4 ∧
      ∀ c ∈ strconv.Itoa modified.Year, c.isDigit = true) := by
  have hyear := strconv.Itoa_plain modified.Year
  have hjoin : targetFile cfg name modified =
      path.Clean (path.Clean (cfg.targetPath ++ '/' :: strconv.Itoa modified.Year) ++
        '/' :: name) := by
    unfold targetFile
    rw [path.Join_pair_eq _ _ htarget, path.Join_pair_eq _ _ (path.Clean_ne_nil _)]
  refine ⟨?_, ?_, processFile_first_event cfg w name modified,
    fun hlo hhi => strconv.Itoa_four_digits _ hlo hhi⟩
  · rw [hjoin, path.Clean_Clean_append _ _ (by simp) hname, List.append_assoc]
    rfl
  · intro hdot hroot
    have hdir : path.Clean (cfg.targetPath ++ '/' :: strconv.Itoa modified.Year) =
        path.Clean cfg.targetPath ++ '/' :: strconv.Itoa modified.Year := by
      rw [← path.Clean_Clean_append _ _ htarget hyear]
      exact path.Clean_append_plain _ _ (path.Clean_Clean _) hdot hroot hyear
    have hlen : 2 ≤ (path.Clean cfg.targetPath ++ '/' :: strconv.Itoa modified.Year).length := by
      have := List.length_pos.mpr hyear.1
      simp only [List.length_append, List.length_cons]
      omega
    rw [hjoin, hdir, path.Clean_append_plain _ _ (by rw [← hdir]; exact path.Clean_Clean _)
      (fun h => by rw [h] at hlen; simp at hlen)
      (fun h => by rw [h] at hlen; simp at hlen) hname, List.append_assoc]
    rfl

/-- C3 for `-t tgt` and the photo `a.jpg` modified in 2023: the destination
is `tgt/2023/a.jpg`. -/
theorem C3_year_routing_witness :
    sampleConfig.targetPath ≠ [] ∧ path.plainName "a.jpg".toList ∧
    targetFile sampleConfig "a.jpg".toList time2023 = "tgt/2023/a.jpg".toList ∧
    targetFile sampleConfig "a.jpg".toList time2023 =
      path.Clean sampleConfig.targetPath ++
        '/' :: (strconv.Itoa time2023.Year ++ '/' :: "a.jpg".toList) :=
  ⟨by decide, ⟨by decide, by decide, by decide, by decide⟩, by decide,
    (C3_year_routing sampleConfig (worldOf sampleFS sampleListing) "a.jpg".toList time2023
      (by decide) ⟨by decide, by decide, by decide, by decide⟩).2.1
      (by decide) (by decide)⟩

end Photosorter
